import Mathlib

/-!
Verification of the MARKETSCAR pricing-gate core against its specification.

The development shallowly embeds the Python sources:
  * `src/gate/gate_controller.py`   — decision policy and governed-action entrypoint
  * `src/infra/crypto_signer.py`    — signature verification control flow
  * `src/utils/canonical.py`        — canonical JSON serialization
  * `src/audit/audit_logger.py`     — append-only audit log
  * `src/diagnostic/jsd_calculator.py` — bootstrap Jensen-Shannon drift estimator

Python floats are modelled as rationals (`ℚ`): every comparison and arithmetic
branch relevant to the verified claims is exact on the values involved.
Transcendental kernels (`log2`, `log1p`, the scipy KDE) are abstracted as
function parameters because no verified claim depends on their numeric values.
-/

namespace Marketscar

/-! ## DecisionGate (`GateController._decide`)

Source (`gate_controller.py`):
```
jsd = float(diagnostics.get("jsd_global", 0.0))
if jsd >= float(self.thresholds.get("jsd_global_99", 1e9)): return "HARD_LOCK"
if jsd >= float(self.thresholds.get("jsd_global_95", 1e9)): return "THROTTLE"
return "OPEN"
```
`diagnostics` and `thresholds` are Python dicts; only the keys `jsd_global`,
`jsd_global_95` and `jsd_global_99` are read, so each mapping is embedded as
the `Option ℚ` value at the key it is queried for (`none` = key absent). -/

inductive Tier where
  | OPEN
  | THROTTLE
  | HARD_LOCK
deriving DecidableEq, Repr

/-- Embedding of `GateController._decide`.  `jsd_global` is the value of
`diagnostics.get("jsd_global", 0.0)`; `t95`/`t99` are the values of
`thresholds.get("jsd_global_95", 1e9)` / `thresholds.get("jsd_global_99", 1e9)`
with `none` for an absent key. -/
def decide_tier (jsd_global : Option ℚ) (t95 t99 : Option ℚ) : Tier :=
  let jsd := jsd_global.getD 0
  if jsd ≥ t99.getD 1000000000 then Tier.HARD_LOCK
  else if jsd ≥ t95.getD 1000000000 then Tier.THROTTLE
  else Tier.OPEN

/-! ## CryptoSigner.verify (`crypto_signer.py`, last class definition wins)

Source:
```
def verify(self, payload, signature_hex):
    if not self._pub:
        raise RuntimeError("Public key not loaded. ...")
    payload_bytes = self._to_bytes(payload)
    sig = binascii.unhexlify(signature_hex)        # OUTSIDE the try block
    try:
        self._pub.verify(sig, payload_bytes, padding.PKCS1v15(), hashes.SHA256())
        return True
    except Exception:
        return False
```
The RSA check itself is abstracted as a boolean parameter `rsaVerify` (the
`try` block converts any of its exceptions to `False`, so the block as a whole
is a total boolean).  `binascii.unhexlify` is embedded exactly: it fails on an
odd-length string or on any non-hex-digit character. -/

inductive PyError where
  | runtimeError
  | binasciiError
deriving DecidableEq, Repr

def hexDigitVal (c : Char) : Option Nat :=
  if '0' ≤ c ∧ c ≤ '9' then some (c.toNat - '0'.toNat)
  else if 'a' ≤ c ∧ c ≤ 'f' then some (c.toNat - 'a'.toNat + 10)
  else if 'A' ≤ c ∧ c ≤ 'F' then some (c.toNat - 'A'.toNat + 10)
  else none

/-- `binascii.unhexlify`: pairs of hex digits to bytes; error on an odd-length
string or a non-hex character. -/
def unhexlify : List Char → Option (List Nat)
  | [] => some []
  | [_] => none
  | c₁ :: c₂ :: rest =>
    match hexDigitVal c₁, hexDigitVal c₂, unhexlify rest with
    | some h, some l, some bs => some ((h * 16 + l) :: bs)
    | _, _, _ => none

/-- Embedding of `CryptoSigner.verify`.  `pub` is the loaded public key
(`none` when `DEV_PUBLIC_KEY_PATH` is unset/missing); `rsaVerify pub payload
sig` is the boolean outcome of the guarded `self._pub.verify(...)` block. -/
def CryptoSigner.verify {K : Type} (pub : Option K)
    (rsaVerify : K → List Nat → List Nat → Bool)
    (payloadBytes : List Nat) (signatureHex : List Char) : Except PyError Bool :=
  match pub with
  | none => Except.error PyError.runtimeError
  | some k =>
    match unhexlify signatureHex with
    | none => Except.error PyError.binasciiError
    | some sig => Except.ok (rsaVerify k payloadBytes sig)

/-! ## GateController.execute_pricing_action

Source builds `diagnostics = {"jsd_global": float(context.get("jsd_global",
0.0))}`, decides the tier, assembles the receipt payload, signs it and returns
`{"action": ..., "diagnostics": ..., "receipt": {"payload": ..., "signature":
...}}`.  It performs no audit-log write: the state of the audit log is passed
through to make that observable.  Signing (`CryptoSigner.sign`) either
produces a hex string or raises `RuntimeError` when no private key is loaded,
so it is modelled as an `Except`-valued parameter. -/

structure ReceiptPayload (P : Type) where
  timestamp : String
  action_type : String
  payload : P
  action : Tier
  jsd_global : ℚ
deriving DecidableEq, Repr

structure Receipt (P : Type) where
  payload : ReceiptPayload P
  signature : String
deriving DecidableEq, Repr

structure PricingDecision (P : Type) where
  action : Tier
  jsd_global : ℚ
  receipt : Receipt P
deriving DecidableEq, Repr

/-- Embedding of `GateController.execute_pricing_action`.  `signFn` is
`self.signer.sign` (error = `RuntimeError: Private key not loaded`); `now` is
the wall-clock timestamp string; `auditLog` is the sequence of receipts
persisted in the audit log, threaded through unchanged because the source
never writes to it. -/
def execute_pricing_action {P A : Type}
    (signFn : ReceiptPayload P → Except PyError String)
    (t95 t99 : Option ℚ) (now : String)
    (action_type : String) (payload : P) (context_jsd : Option ℚ)
    (auditLog : List A) : Except PyError (PricingDecision P × List A) := do
  let jsd := context_jsd.getD 0
  let action := decide_tier (some jsd) t95 t99
  let receipt_payload : ReceiptPayload P :=
    { timestamp := now, action_type := action_type, payload := payload,
      action := action, jsd_global := jsd }
  let sig ← signFn receipt_payload
  Except.ok ({ action := action, jsd_global := jsd,
               receipt := { payload := receipt_payload, signature := sig } },
             auditLog)

/-! ## DriftEstimator (`jsd_calculator.py`)

The estimator is embedded over `ℚ`.  Its transcendental kernels are
abstracted as parameters, because no verified claim depends on their values:
  * `log1p` — `np.log1p` applied elementwise to the price column;
  * `log2`  — `np.log2` / `math.log2`;
  * `kdeEval samples bw centers` — the guarded `gaussian_kde` evaluation at
    bin centers: `none` models both "scipy unavailable" and "KDE raised",
    which the source answers with the deterministic histogram fallback;
  * `mkRng` / `randint` — `np.random.RandomState(seed)` and
    `rng.randint(0, bound)`; the generator state has abstract type `R` and is
    threaded explicitly, exactly one draw per generated index.
`rng.randint(0, len(prices))` always yields an index below `len(prices)`, so
the embedding reads `prices` with `List.getD` (default never reached for a
faithful `randint`). -/

def EPS : ℚ := 1 / 1000000000000

/-- `_safe_normalize`: add `EPS` everywhere, renormalize; if the sum is not
positive, fall back to a uniform vector. -/
def safe_normalize (arr : List ℚ) : List ℚ :=
  let arr2 := arr.map (fun x => x + EPS)
  let s := arr2.sum
  if s ≤ 0 then
    let ones : List ℚ := arr2.map (fun _ => 1)
    ones.map (fun x => x / ones.sum)
  else
    arr2.map (fun x => x / s)

/-- `_kl_div`: `np.sum(p * np.log2(p / q))`. -/
def kl_div (log2 : ℚ → ℚ) (p q : List ℚ) : ℚ :=
  ((p.zip q).map (fun pq => pq.1 * log2 (pq.1 / pq.2))).sum

/-- `_jsd_from_pmfs`: symmetrized KL against the average, normalized by
`math.log2(2.0)`. -/
def jsd_from_pmfs (log2 : ℚ → ℚ) (p q : List ℚ) : ℚ :=
  let p2 := safe_normalize p
  let q2 := safe_normalize q
  let m := (p2.zip q2).map (fun pq => (pq.1 + pq.2) / 2)
  let jsd := kl_div log2 p2 m / 2 + kl_div log2 q2 m / 2
  jsd / log2 2

/-- Per-bin count of `np.histogram`: half-open bins, the last bin closed on
the right; out-of-range samples are not counted. -/
def binCount (lo hi : ℚ) (isLast : Bool) (samples : List ℚ) : Nat :=
  (samples.filter (fun x =>
    decide (lo ≤ x) && (decide (x < hi) || (isLast && decide (x ≤ hi))))).length

def histCountsList (edges samples : List ℚ) : List Nat :=
  let k := edges.length - 1
  (List.range k).map (fun i =>
    binCount (edges.getD i 0) (edges.getD (i + 1) 0) (i == k - 1) samples)

/-- `_histogram_pmf_from_edges`: `np.histogram(..., density=True)` computes
`counts / (counts.sum() * widths)`; the source multiplies back by the widths
and safely normalizes. -/
def histogram_pmf_from_edges (edges samples : List ℚ) : List ℚ :=
  let counts := histCountsList edges samples
  let total : ℚ := (counts.sum : ℚ)
  let widths := (List.range (edges.length - 1)).map
    (fun i => edges.getD (i + 1) 0 - edges.getD i 0)
  let density := (counts.zip widths).map (fun cw => (cw.1 : ℚ) / (total * cw.2))
  safe_normalize ((density.zip widths).map (fun dw => dw.1 * dw.2))

/-- `_kde_pmf`: empty sample → uniform; constant sample → point mass in the
bin found by `np.searchsorted(..., side="right")` clamped to valid bins;
otherwise the guarded KDE evaluated at bin centers, with the histogram PMF as
the deterministic fallback. -/
def kde_pmf (kdeEval : List ℚ → Option ℚ → List ℚ → Option (List ℚ))
    (gridEdges samples : List ℚ) (bw : Option ℚ) : List ℚ :=
  if samples.length = 0 then
    safe_normalize (List.replicate (gridEdges.length - 1) 1)
  else if samples.dedup.length = 1 then
    let val := samples.headD 0
    let countLe := (gridEdges.filter (fun e => decide (e ≤ val))).length
    let idx := (max 0 (min ((gridEdges.length : Int) - 2) ((countLe : Int) - 1))).toNat
    safe_normalize ((List.replicate (gridEdges.length - 1) (0 : ℚ)).set idx 1)
  else
    let centers := (List.range (gridEdges.length - 1)).map
      (fun i => (gridEdges.getD i 0 + gridEdges.getD (i + 1) 0) / 2)
    match kdeEval samples bw centers with
    | some vals => safe_normalize vals
    | none => histogram_pmf_from_edges gridEdges samples

/-- `np.percentile(xs, p)` with the default linear interpolation. -/
def npPercentile (xs : List ℚ) (p : ℚ) : ℚ :=
  let s := List.insertionSort (fun a b : ℚ => a ≤ b) xs
  let pos := p / 100 * ((s.length : ℚ) - 1)
  let lo := (Int.floor pos).toNat
  let hi := (Int.ceil pos).toNat
  s.getD lo 0 + (pos - (lo : ℚ)) * (s.getD hi 0 - s.getD lo 0)

/-- `np.linspace start stop num`. -/
def linspace (start stop : ℚ) (num : Nat) : List ℚ :=
  (List.range num).map (fun i => start + (i : ℚ) * (stop - start) / ((num : ℚ) - 1))

def qmin : List ℚ → ℚ
  | [] => 0
  | x :: xs => xs.foldl min x

def qmax : List ℚ → ℚ
  | [] => 0
  | x :: xs => xs.foldl max x

/-- `float(max(0.0, min(1.0, jsd)))`. -/
def clamp01 (x : ℚ) : ℚ := max 0 (min 1 x)

/-- `rng.randint(0, bound, size=n)`: `n` sequential draws from the threaded
generator state. -/
def drawIndices (R : Type) (randint : R → Nat → Nat × R) (bound : Nat) :
    Nat → R → List Nat × R
  | 0, rng => ([], rng)
  | n + 1, rng =>
    let p := randint rng bound
    let rest := drawIndices R randint bound n p.2
    (p.1 :: rest.1, rest.2)

/-- The bootstrap loop of `compute_jsd_distribution`: draw indices, build the
resample, run the `try` block (`tryBody`; `Except.error` models a numerical
exception), record `1.0` on failure, clamp to `[0,1]`, continue. -/
def jsdLoop (R : Type) (randint : R → Nat → Nat × R)
    (tryBody : List ℚ → Except Unit ℚ) (prices : List ℚ) (sampleN : Nat) :
    Nat → R → List ℚ
  | 0, _ => []
  | n + 1, rng =>
    let dr := drawIndices R randint prices.length sampleN rng
    let sample := dr.1.map (fun j => prices.getD j 0)
    let jsd := match tryBody sample with
      | Except.ok v => v
      | Except.error _ => 1
    clamp01 jsd :: jsdLoop R randint tryBody prices sampleN n dr.2

/-- The baseline container: column names plus per-column data; `none` entries
are the NaNs dropped by `df[price_col].dropna()`. -/
structure DataFrame where
  columns : List String
  col : String → List (Option ℚ)

inductive JsdError where
  | keyError
deriving DecidableEq, Repr

/-- `prices = df[price_col].dropna().astype(float).values`, optionally
log1p-transformed (lines 160–163 of `jsd_calculator.py`). -/
def effPrices (log1p : ℚ → ℚ) (df : DataFrame) (price_col : String)
    (log_transform : Bool) : List ℚ :=
  let prices0 := (df.col price_col).filterMap id
  if log_transform then prices0.map log1p else prices0

/-- The non-empty branch of `compute_jsd_distribution`: robust-percentile bin
grid, baseline PMF, then the bootstrap loop. -/
def jsd_main (R : Type) (randint : R → Nat → Nat × R) (log2 : ℚ → ℚ)
    (kdeEval : List ℚ → Option ℚ → List ℚ → Option (List ℚ))
    (prices : List ℚ) (n n_bootstrap n_bins : Nat) (bw : Option ℚ)
    (rng : R) : List ℚ :=
  let lo0 := npPercentile prices (1 / 2)
  let hi0 := npPercentile prices (199 / 2)
  let loHi := if hi0 ≤ lo0 then (qmin prices, qmax prices) else (lo0, hi0)
  let pad := max (1 / 1000000) ((loHi.2 - loHi.1) * (1 / 10))
  let gridEdges := linspace (loHi.1 - pad) (loHi.2 + pad) (n_bins + 1)
  let pBaseline := kde_pmf kdeEval gridEdges prices bw
  jsdLoop R randint
    (fun sample =>
      Except.ok (jsd_from_pmfs log2 pBaseline (kde_pmf kdeEval gridEdges sample bw)))
    prices n n_bootstrap rng

/-- Embedding of `compute_jsd_distribution` (the `TypeError` guard on the
input container is statically discharged by the `DataFrame` type). -/
def compute_jsd_distribution (R : Type) (mkRng : Nat → R)
    (randint : R → Nat → Nat × R) (log1p log2 : ℚ → ℚ)
    (kdeEval : List ℚ → Option ℚ → List ℚ → Option (List ℚ))
    (df : DataFrame) (seed : Nat) (price_col : String) (n_bootstrap : Nat)
    (sample_size : Option Nat) (n_bins : Nat) (bw : Option ℚ)
    (log_transform : Bool) : Except JsdError (List ℚ) :=
  if price_col ∈ df.columns then
    let prices := effPrices log1p df price_col log_transform
    if prices.length = 0 then Except.ok (List.replicate n_bootstrap 0)
    else
      Except.ok (jsd_main R randint log2 kdeEval prices
        (sample_size.getD prices.length) n_bootstrap n_bins bw (mkRng seed))
  else Except.error JsdError.keyError

/-! ## Canonical JSON (`canonical.py`) and the audit log (`audit_logger.py`)

`canonical_bytes(obj)` is `json.dumps(obj, separators=(",", ":"),
sort_keys=True, ensure_ascii=False).encode("utf-8")`.

JSON values are embedded as the mutual inductive `JVal`/`JItems`/`JMembers`
(`JMembers` keeps the dict's insertion order).  Numeric leaves are embedded
as integers: Python renders floats through their shortest-repr algorithm,
which is IEEE-754-specific and orthogonal to every verified claim about
canonicalization (key order, separators, escaping).

`json.dumps(..., sort_keys=True)` serializes `sorted(d.items())`: it sorts
the members by key (Python compares distinct keys code-point
lexicographically, which is exactly Lean's `String` order) and then renders
each value.  The embedding renders each member's value first and then sorts
the `(key, rendered value)` pairs by key; since the sort compares keys only
and is stable, the output is identical. -/

mutual
inductive JVal where
  | jnull : JVal
  | jbool : Bool → JVal
  | jint : Int → JVal
  | jstr : String → JVal
  | jarr : JItems → JVal
  | jobj : JMembers → JVal
inductive JItems where
  | inil : JItems
  | icons : JVal → JItems → JItems
inductive JMembers where
  | mnil : JMembers
  | mcons : String → JVal → JMembers → JMembers
end

def JMembers.toPairs : JMembers → List (String × JVal)
  | .mnil => []
  | .mcons k v t => (k, v) :: JMembers.toPairs t

def memberKeys : JMembers → List String
  | .mnil => []
  | .mcons k _ t => k :: memberKeys t

def JMembers.mlength : JMembers → Nat
  | .mnil => 0
  | .mcons _ _ t => 1 + JMembers.mlength t

/-- Python `dict` lookup (keys of a dict are unique). -/
def lookupMember (k : String) : JMembers → Option JVal
  | .mnil => none
  | .mcons k2 v t => if k2 = k then some v else lookupMember k t

def nodupKeysB : JMembers → Bool
  | .mnil => true
  | .mcons k _ t => (!((memberKeys t).contains k)) && nodupKeysB t

def digitChar (n : Nat) : Char := Char.ofNat (48 + n)

def hexLowerChar (n : Nat) : Char :=
  if n < 10 then Char.ofNat (48 + n) else Char.ofNat (87 + n)

/-- `json.dumps(..., ensure_ascii=False)` escapes `"` and `\`, uses the
two-character escapes for the common control characters, and `\u00xx`
(lowercase hex) for the remaining control characters below U+0020; every
other character is emitted verbatim. -/
def escapeChar (c : Char) : List Char :=
  if c = '"' then ['\\', '"']
  else if c = '\\' then ['\\', '\\']
  else if c = '\n' then ['\\', 'n']
  else if c = '\t' then ['\\', 't']
  else if c = '\r' then ['\\', 'r']
  else if c = '\x08' then ['\\', 'b']
  else if c = '\x0c' then ['\\', 'f']
  else if c.toNat < 32 then
    ['\\', 'u', '0', '0', hexLowerChar (c.toNat / 16), hexLowerChar (c.toNat % 16)]
  else [c]

def quoteChars (s : String) : List Char :=
  '"' :: (s.data.map escapeChar).flatten ++ ['"']

/-- Decimal digits of `n` (structural on a fuel that always suffices, so the
definition evaluates by `rfl`). -/
def natDigitsAux : Nat → Nat → List Char
  | 0, _ => []
  | fuel + 1, n =>
    if n < 10 then [digitChar n]
    else natDigitsAux fuel (n / 10) ++ [digitChar (n % 10)]

def natDigits (n : Nat) : List Char := natDigitsAux (n + 1) n

/-- Python `str` of an `int`. -/
def intRepr (n : Int) : List Char :=
  if n < 0 then '-' :: natDigits (-n).toNat else natDigits n.toNat

/-- Ordering of rendered members: compare keys only (Python's tuple sort on
`d.items()` never reaches the values because dict keys are distinct). -/
def keyLe (p q : String × List Char) : Prop := p.1 ≤ q.1

instance : DecidableRel keyLe := fun p q => inferInstanceAs (Decidable (p.1 ≤ q.1))

instance : IsTotal (String × List Char) keyLe := ⟨fun p q => le_total p.1 q.1⟩

instance : IsTrans (String × List Char) keyLe := ⟨fun _ _ _ h h2 => le_trans h h2⟩

/-- Strict-or-equal key order, used to identify the two sorted member lists
of semantically equal objects (antisymmetric, unlike `keyLe`). -/
def keyLt (p q : String × List Char) : Prop := p.1 < q.1 ∨ p = q

instance : IsAntisymm (String × List Char) keyLt :=
  ⟨by
    intro p q h1 h2
    rcases h1 with h1 | h1
    · rcases h2 with h2 | h2
      · exact absurd h2 (lt_asymm h1)
      · exact h2.symm
    · exact h1⟩

def joinComma : List (List Char) → List Char
  | [] => []
  | [x] => x
  | x :: y :: t => x ++ ',' :: joinComma (y :: t)

def renderPair (p : String × List Char) : List Char :=
  quoteChars p.1 ++ ':' :: p.2

def joinPairs (l : List (String × List Char)) : List Char :=
  joinComma (l.map renderPair)

mutual
def renderJVal : JVal → List Char
  | .jnull => ['n', 'u', 'l', 'l']
  | .jbool true => ['t', 'r', 'u', 'e']
  | .jbool false => ['f', 'a', 'l', 's', 'e']
  | .jint n => intRepr n
  | .jstr s => quoteChars s
  | .jarr xs => '[' :: joinComma (renderItems xs) ++ [']']
  | .jobj kvs =>
    '\x7b' :: joinPairs (List.insertionSort keyLe (renderMembers kvs)) ++ ['\x7d']
def renderItems : JItems → List (List Char)
  | .inil => []
  | .icons v t => renderJVal v :: renderItems t
def renderMembers : JMembers → List (String × List Char)
  | .mnil => []
  | .mcons k v t => (k, renderJVal v) :: renderMembers t
end

/-- UTF-8 encoding of one scalar value. -/
def utf8Bytes (c : Char) : List Nat :=
  let n := c.toNat
  if n < 128 then [n]
  else if n < 2048 then [192 + n / 64, 128 + n % 64]
  else if n < 65536 then [224 + n / 4096, 128 + (n / 64) % 64, 128 + n % 64]
  else [240 + n / 262144, 128 + (n / 4096) % 64, 128 + (n / 64) % 64, 128 + n % 64]

/-- `canonical_bytes`: the canonical serialization, UTF-8 encoded. -/
def canonical_bytes (v : JVal) : List Nat :=
  ((renderJVal v).map utf8Bytes).flatten

mutual
def jsize : JVal → Nat
  | .jnull => 1
  | .jbool _ => 1
  | .jint _ => 1
  | .jstr _ => 1
  | .jarr xs => 1 + isize xs
  | .jobj kvs => 1 + msize kvs
def isize : JItems → Nat
  | .inil => 1
  | .icons v t => 1 + jsize v + isize t
def msize : JMembers → Nat
  | .mnil => 1
  | .mcons _ v t => 1 + jsize v + msize t
end

/-! Semantic equality of JSON payloads: equal leaves, pointwise equal arrays,
and objects that are equal as key→value mappings — same distinct keys (in any
insertion order) with semantically equal values. -/
mutual
def semEq : JVal → JVal → Bool
  | .jnull, .jnull => true
  | .jbool a, .jbool b => a == b
  | .jint a, .jint b => a == b
  | .jstr a, .jstr b => a == b
  | .jarr a, .jarr b => semEqItems a b
  | .jobj a, .jobj b =>
    (JMembers.mlength a == JMembers.mlength b) && nodupKeysB a && nodupKeysB b
      && semEqSub a b
  | _, _ => false
def semEqItems : JItems → JItems → Bool
  | .inil, .inil => true
  | .icons x xs, .icons y ys => semEq x y && semEqItems xs ys
  | _, _ => false
def semEqSub : JMembers → JMembers → Bool
  | .mnil, _ => true
  | .mcons k v t, b =>
    (match lookupMember k b with
     | some w => semEq v w
     | none => false) && semEqSub t b
end

/-! ### Key-sorted normal form

`json.loads(canonical_bytes(r))` returns `r` with the members of every object
in sorted key order (Python dict equality is order-insensitive, so Python
still reports the decoded record equal to `r`).  `normalize` is that normal
form; `canonical_bytes (normalize r) = canonical_bytes r` is proved below. -/

def fromPairs : List (String × JVal) → JMembers
  | [] => JMembers.mnil
  | (k, v) :: t => JMembers.mcons k v (fromPairs t)

def keyLeJ (p q : String × JVal) : Prop := p.1 ≤ q.1

instance : DecidableRel keyLeJ := fun p q => inferInstanceAs (Decidable (p.1 ≤ q.1))

instance : IsTotal (String × JVal) keyLeJ := ⟨fun p q => le_total p.1 q.1⟩

instance : IsTrans (String × JVal) keyLeJ := ⟨fun _ _ _ h h2 => le_trans h h2⟩

def sortMembers (m : JMembers) : JMembers :=
  fromPairs (List.insertionSort keyLeJ m.toPairs)

mutual
def normalize : JVal → JVal
  | .jnull => .jnull
  | .jbool b => .jbool b
  | .jint n => .jint n
  | .jstr s => .jstr s
  | .jarr xs => .jarr (normItems xs)
  | .jobj kvs => .jobj (sortMembers (normMembers kvs))
def normItems : JItems → JItems
  | .inil => .inil
  | .icons v t => .icons (normalize v) (normItems t)
def normMembers : JMembers → JMembers
  | .mnil => .mnil
  | .mcons k v t => .mcons k (normalize v) (normMembers t)
end

def sortedKeysB : JMembers → Bool
  | .mnil => true
  | .mcons _ _ .mnil => true
  | .mcons k _ (.mcons k2 v2 t2) =>
    decide (k ≤ k2) && sortedKeysB (.mcons k2 v2 t2)

mutual
def isNormalB : JVal → Bool
  | .jnull => true
  | .jbool _ => true
  | .jint _ => true
  | .jstr _ => true
  | .jarr xs => isNormalItems xs
  | .jobj kvs => sortedKeysB kvs && isNormalMembers kvs
def isNormalItems : JItems → Bool
  | .inil => true
  | .icons v t => isNormalB v && isNormalItems t
def isNormalMembers : JMembers → Bool
  | .mnil => true
  | .mcons _ v t => isNormalB v && isNormalMembers t
end

/-! ### JSON reader (`json.loads`, as exercised by `read_all`)

`read_all` iterates the log file's lines and runs `json.loads` on each,
skipping lines that fail to parse.  The reader is embedded as a recursive
descent parser over the line's characters, fueled so that it is structurally
recursive (the fuel `length + 1` always suffices; sufficiency is proved for
the canonical lines the log writes).  Numeric tokens are integer-only, in
step with the integer numeric leaves of `JVal`; a line whose parse leaves
unconsumed non-whitespace input is rejected, like `json.loads`. -/

def isWs (c : Char) : Bool := c = ' ' || c = '\t' || c = '\n' || c = '\r'

def skipWs : List Char → List Char
  | [] => []
  | c :: t => if isWs c then skipWs t else c :: t

def parseHex4 : List Char → Option (Nat × List Char)
  | a :: b :: c :: d :: rest =>
    match hexDigitVal a, hexDigitVal b, hexDigitVal c, hexDigitVal d with
    | some x, some y, some z, some w => some (((x * 16 + y) * 16 + z) * 16 + w, rest)
    | _, _, _, _ => none
  | _ => none

def parseStringBody : Nat → List Char → Option (List Char × List Char)
  | 0, _ => none
  | fuel + 1, l =>
    match l with
    | [] => none
    | c :: rest =>
      if c = '"' then some ([], rest)
      else if c = '\\' then
        match rest with
        | [] => none
        | e :: rest2 =>
          let dec : Option (Char × List Char) :=
            if e = '"' then some ('"', rest2)
            else if e = '\\' then some ('\\', rest2)
            else if e = '/' then some ('/', rest2)
            else if e = 'n' then some ('\n', rest2)
            else if e = 't' then some ('\t', rest2)
            else if e = 'r' then some ('\r', rest2)
            else if e = 'b' then some ('\x08', rest2)
            else if e = 'f' then some ('\x0c', rest2)
            else if e = 'u' then
              match parseHex4 rest2 with
              | some (n, rest3) =>
                if n.isValidChar then some (Char.ofNat n, rest3) else none
              | none => none
            else none
          match dec with
          | some (ch, rest2b) =>
            match parseStringBody fuel rest2b with
            | some (cs, rest3) => some (ch :: cs, rest3)
            | none => none
          | none => none
      else
        match parseStringBody fuel rest with
        | some (cs, rest2) => some (c :: cs, rest2)
        | none => none

def takeDigits : List Char → List Char × List Char
  | [] => ([], [])
  | c :: t =>
    if c.isDigit then
      let p := takeDigits t
      (c :: p.1, p.2)
    else ([], c :: t)

def digitsVal (l : List Char) : Nat :=
  l.foldl (fun a c => a * 10 + (c.toNat - 48)) 0

def parseIntFrom (l : List Char) : Option (JVal × List Char) :=
  match l with
  | '-' :: t =>
    let p := takeDigits t
    if p.1 = [] then none else some (.jint (-(digitsVal p.1 : Int)), p.2)
  | t =>
    let p := takeDigits t
    if p.1 = [] then none else some (.jint ((digitsVal p.1 : Int)), p.2)

mutual
def parseJVal : Nat → List Char → Option (JVal × List Char)
  | 0, _ => none
  | fuel + 1, l =>
    match skipWs l with
    | [] => none
    | c :: rest =>
      if c = 'n' then
        match rest with
        | 'u' :: 'l' :: 'l' :: r => some (.jnull, r)
        | _ => none
      else if c = 't' then
        match rest with
        | 'r' :: 'u' :: 'e' :: r => some (.jbool true, r)
        | _ => none
      else if c = 'f' then
        match rest with
        | 'a' :: 'l' :: 's' :: 'e' :: r => some (.jbool false, r)
        | _ => none
      else if c = '"' then
        match parseStringBody (rest.length + 1) rest with
        | some (cs, r) => some (.jstr (String.mk cs), r)
        | none => none
      else if c = '-' ∨ c.isDigit then parseIntFrom (c :: rest)
      else if c = '[' then
        match skipWs rest with
        | ']' :: r => some (.jarr .inil, r)
        | rest2 =>
          match parseItems fuel rest2 with
          | some (xs, r) => some (.jarr xs, r)
          | none => none
      else if c = '\x7b' then
        match skipWs rest with
        | '\x7d' :: r => some (.jobj .mnil, r)
        | rest2 =>
          match parseMembers fuel rest2 with
          | some (ms, r) => some (.jobj ms, r)
          | none => none
      else none
def parseItems : Nat → List Char → Option (JItems × List Char)
  | 0, _ => none
  | fuel + 1, l =>
    match parseJVal fuel l with
    | some (v, r) =>
      match skipWs r with
      | ',' :: r2 =>
        match parseItems fuel r2 with
        | some (vs, r3) => some (.icons v vs, r3)
        | none => none
      | ']' :: r2 => some (.icons v .inil, r2)
      | _ => none
    | none => none
def parseMembers : Nat → List Char → Option (JMembers × List Char)
  | 0, _ => none
  | fuel + 1, l =>
    match skipWs l with
    | '"' :: r =>
      match parseStringBody (r.length + 1) r with
      | some (kcs, r2) =>
        match skipWs r2 with
        | ':' :: r3 =>
          match parseJVal fuel r3 with
          | some (v, r4) =>
            match skipWs r4 with
            | ',' :: r5 =>
              match parseMembers fuel r5 with
              | some (ms, r6) => some (.mcons (String.mk kcs) v ms, r6)
              | none => none
            | '\x7d' :: r5 => some (.mcons (String.mk kcs) v .mnil, r5)
            | _ => none
          | none => none
        | _ => none
      | none => none
    | _ => none
end

/-- Contexts in which a rendered value is followed by a token that cannot
extend it: end of input, or a separator/closer. -/
def numStopB : List Char → Bool
  | [] => true
  | c :: _ => c = ',' || c = ']' || c = '\x7d'

/-- `json.loads` on one log line: parse a value, allow surrounding
whitespace, and require the whole line to be consumed. -/
def parseLine (l : List Char) : Option JVal :=
  match parseJVal (l.length + 1) l with
  | some (v, r) => if skipWs r = [] then some v else none
  | none => none

/-! Consumed fuel of the reader on a value: one tick per `parseJVal`,
`parseItems` or `parseMembers` activation. -/
mutual
def pticks : JVal → Nat
  | .jnull => 1
  | .jbool _ => 1
  | .jint _ => 1
  | .jstr _ => 1
  | .jarr xs => 1 + iticks xs
  | .jobj kvs => 1 + mticks kvs
def iticks : JItems → Nat
  | .inil => 0
  | .icons v t => 1 + pticks v + iticks t
def mticks : JMembers → Nat
  | .mnil => 0
  | .mcons _ v t => 1 + pticks v + mticks t
end

/-! ### AuditLogger

`append` writes `canonical_bytes(receipt) + b"\n"` at the end of the log
file and fsyncs; `read_all` splits the file into newline-delimited lines and
`json.loads`-parses each, skipping malformed lines.  The file is modelled at
character level: UTF-8 is a bijection on scalar values and never hides a
`0x0A` byte inside a multi-byte sequence, so byte-level line splitting of
the encoded file coincides with character-level splitting. -/

def splitLines : List Char → List (List Char) :=
  List.foldr
    (fun c acc =>
      if c = '\n' then [] :: acc else (c :: acc.headD []) :: acc.tail)
    [[]]

def AuditLogger.append (file : List Char) (receipt : JVal) : List Char :=
  file ++ renderJVal receipt ++ ['\n']

def AuditLogger.read_all (file : List Char) : List JVal :=
  (splitLines file).filterMap parseLine

/-! ## Claims C1–C4 -/

/-- C1: `_decide` returns HARD_LOCK when `jsd_global` (default 0.0) is ≥ the
`jsd_global_99` threshold, otherwise THROTTLE when ≥ the `jsd_global_95`
threshold, otherwise OPEN; an absent threshold defaults to `1e9`, which no
score in `[0,1]` can reach, so the corresponding tier is never triggered. -/
theorem decide_tier_spec (jsd95 jsd99 : Option ℚ) (jsd : Option ℚ) :
    (jsd.getD 0 ≥ jsd99.getD 1000000000 →
      decide_tier jsd jsd95 jsd99 = Tier.HARD_LOCK)
    ∧ (jsd.getD 0 < jsd99.getD 1000000000 → jsd.getD 0 ≥ jsd95.getD 1000000000 →
      decide_tier jsd jsd95 jsd99 = Tier.THROTTLE)
    ∧ (jsd.getD 0 < jsd99.getD 1000000000 → jsd.getD 0 < jsd95.getD 1000000000 →
      decide_tier jsd jsd95 jsd99 = Tier.OPEN)
    ∧ (jsd99 = none → 0 ≤ jsd.getD 0 → jsd.getD 0 ≤ 1 →
      decide_tier jsd jsd95 jsd99 ≠ Tier.HARD_LOCK)
    ∧ (jsd95 = none → 0 ≤ jsd.getD 0 → jsd.getD 0 ≤ 1 →
      decide_tier jsd jsd95 jsd99 ≠ Tier.THROTTLE) := by
  refine ⟨fun h => ?_, fun h h2 => ?_, fun h h2 => ?_, fun h h0 h1 => ?_, fun h h0 h1 => ?_⟩
  all_goals simp only [decide_tier]
  · rw [if_pos h]
  · rw [if_neg (not_le.mpr h), if_pos h2]
  · rw [if_neg (not_le.mpr h), if_neg (not_le.mpr h2)]
  · subst h
    have hlt : jsd.getD 0 < ((1000000000 : ℚ)) := lt_of_le_of_lt h1 (by norm_num)
    simp only [Option.getD_none]
    rw [if_neg (not_le.mpr hlt)]
    split
    · intro hcontra; exact Tier.noConfusion hcontra
    · intro hcontra; exact Tier.noConfusion hcontra
  · subst h
    have hlt : jsd.getD 0 < ((1000000000 : ℚ)) := lt_of_le_of_lt h1 (by norm_num)
    split
    · intro hcontra; exact Tier.noConfusion hcontra
    · simp only [Option.getD_none]
      rw [if_neg (not_le.mpr hlt)]
      intro hcontra; exact Tier.noConfusion hcontra

/-- C1 witness: the three tiers and the disabled-tier defaults, evaluated at
concrete scores and thresholds. -/
theorem decide_tier_spec_witness :
    decide_tier (some (9/10)) (some (1/2)) (some (8/10)) = Tier.HARD_LOCK
    ∧ decide_tier (some (6/10)) (some (1/2)) (some (8/10)) = Tier.THROTTLE
    ∧ decide_tier (some (1/10)) (some (1/2)) (some (8/10)) = Tier.OPEN
    ∧ decide_tier (some 1) none (some 2) ≠ Tier.HARD_LOCK
    ∧ decide_tier (some 1) none none ≠ Tier.THROTTLE :=
  ⟨(decide_tier_spec (some (1/2)) (some (8/10)) (some (9/10))).1 (by norm_num),
   (decide_tier_spec (some (1/2)) (some (8/10)) (some (6/10))).2.1 (by norm_num) (by norm_num),
   (decide_tier_spec (some (1/2)) (some (8/10)) (some (1/10))).2.2.1 (by norm_num) (by norm_num),
   fun hcl => by
     have := (decide_tier_spec none (some 2) (some 1)).2.2.1 (by norm_num) (by norm_num)
     rw [this] at hcl
     exact Tier.noConfusion hcl,
   (decide_tier_spec none none (some 1)).2.2.2.2 rfl (by norm_num) (by norm_num)⟩

/-- C2 counterexample: with `jsd_global_99 = 0.0` and a negative
`jsd_global = -1`, `_decide` returns OPEN, not HARD_LOCK: the claim that a
zero threshold locks "regardless of the jsd_global value (... including any
negative jsd_global value)" is false on the code, because `-1 >= 0.0` fails. -/
theorem decide_tier_zero_threshold_counterexample :
    decide_tier (some (-1)) none (some 0) = Tier.OPEN
    ∧ decide_tier (some (-1)) none (some 0) ≠ Tier.HARD_LOCK := by
  constructor
  · rfl
  · intro h
    exact Tier.noConfusion (h.symm.trans rfl)

/-- C2 (amended): with `jsd_global_99` configured as exactly `0.0`, `_decide`
returns HARD_LOCK for every nonnegative `jsd_global` — in particular when the
key is absent and defaults to `0.0` — for any `jsd_global_95` setting; only a
negative score escapes the kill switch. -/
theorem decide_tier_zero_threshold_locks (jsd : Option ℚ) (jsd95 : Option ℚ)
    (h : 0 ≤ jsd.getD 0) :
    decide_tier jsd jsd95 (some 0) = Tier.HARD_LOCK := by
  simp only [decide_tier, Option.getD_some]
  rw [if_pos h]

/-- C2 witness: an empty diagnostic context (score defaults to 0.0) with a
zero 99th-percentile threshold yields HARD_LOCK. -/
theorem decide_tier_zero_threshold_locks_witness :
    decide_tier none none (some 0) = Tier.HARD_LOCK :=
  decide_tier_zero_threshold_locks none none (by norm_num)

/-- C3 counterexample: a successful `execute_pricing_action` call starting
from an empty audit log returns a decision carrying a signed receipt while
the audit log is still empty — the receipt was not persisted before the
decision was returned (the source never invokes `AuditLogger.append`). -/
theorem execute_pricing_action_no_persist_counterexample :
    execute_pricing_action (fun _ => Except.ok "sig") none none
        "2024-01-01T00:00:00Z" "publish_price" () (some 1)
        ([] : List (Receipt Unit))
      = Except.ok
          ({ action := Tier.OPEN, jsd_global := 1,
             receipt :=
               { payload := { timestamp := "2024-01-01T00:00:00Z",
                              action_type := "publish_price", payload := (),
                              action := Tier.OPEN, jsd_global := 1 },
                 signature := "sig" } },
           ([] : List (Receipt Unit)))
    ∧ ({ payload := { timestamp := "2024-01-01T00:00:00Z",
                      action_type := "publish_price", payload := (),
                      action := Tier.OPEN, jsd_global := 1 },
         signature := "sig" } : Receipt Unit) ∉ ([] : List (Receipt Unit)) := by
  exact ⟨rfl, List.not_mem_nil _⟩

/-- C3 (amended): a successful `execute_pricing_action` call returns the tier
together with a receipt whose payload records that tier and whose signature
is exactly the signer's output on that payload, but it performs no audit-log
write: the audit log is unchanged when the decision is returned. -/
theorem execute_pricing_action_signs_but_does_not_persist
    {P A : Type} (signFn : ReceiptPayload P → Except PyError String)
    (t95 t99 : Option ℚ) (now action_type : String) (payload : P)
    (context_jsd : Option ℚ) (auditLog : List A)
    (d : PricingDecision P) (logAfter : List A)
    (h : execute_pricing_action signFn t95 t99 now action_type payload
          context_jsd auditLog = Except.ok (d, logAfter)) :
    logAfter = auditLog
    ∧ d.action = decide_tier (some (context_jsd.getD 0)) t95 t99
    ∧ d.receipt.payload =
        { timestamp := now, action_type := action_type, payload := payload,
          action := d.action, jsd_global := context_jsd.getD 0 }
    ∧ signFn d.receipt.payload = Except.ok d.receipt.signature := by
  unfold execute_pricing_action at h
  simp only [bind, Except.bind] at h
  revert h
  cases hs : signFn
      { timestamp := now, action_type := action_type, payload := payload,
        action := decide_tier (some (context_jsd.getD 0)) t95 t99,
        jsd_global := context_jsd.getD 0 } with
  | error e => intro h; exact absurd h (by simp)
  | ok s =>
    intro h
    have h2 := Except.ok.inj h
    injection h2 with hd hl
    subst hd
    subst hl
    exact ⟨rfl, rfl, rfl, hs⟩

/-- C3 witness: the amended statement evaluated on a concrete successful
call. -/
theorem execute_pricing_action_signs_but_does_not_persist_witness :
    (([] : List (Receipt Unit)) = ([] : List (Receipt Unit)))
    ∧ ({ action := Tier.OPEN, jsd_global := 1,
         receipt :=
           { payload := { timestamp := "t", action_type := "a", payload := (),
                          action := Tier.OPEN, jsd_global := 1 },
             signature := "sig" } } : PricingDecision Unit).action
        = decide_tier (some ((some (1 : ℚ)).getD 0)) none none
    ∧ ({ action := Tier.OPEN, jsd_global := 1,
         receipt :=
           { payload := { timestamp := "t", action_type := "a", payload := (),
                          action := Tier.OPEN, jsd_global := 1 },
             signature := "sig" } } : PricingDecision Unit).receipt.payload
        = { timestamp := "t", action_type := "a", payload := (),
            action := Tier.OPEN, jsd_global := 1 }
    ∧ (fun (_ : ReceiptPayload Unit) => (Except.ok "sig" : Except PyError String))
        ({ action := Tier.OPEN, jsd_global := 1,
           receipt :=
             { payload := { timestamp := "t", action_type := "a", payload := (),
                            action := Tier.OPEN, jsd_global := 1 },
               signature := "sig" } } : PricingDecision Unit).receipt.payload
        = Except.ok "sig" := by
  have := execute_pricing_action_signs_but_does_not_persist
    (fun _ => (Except.ok "sig" : Except PyError String)) none none "t" "a" ()
    (some 1) ([] : List (Receipt Unit))
    ({ action := Tier.OPEN, jsd_global := 1,
       receipt :=
         { payload := { timestamp := "t", action_type := "a", payload := (),
                        action := Tier.OPEN, jsd_global := 1 },
           signature := "sig" } })
    ([] : List (Receipt Unit)) rfl
  exact ⟨this.1, this.2.1, this.2.2.1, this.2.2.2⟩

/-- C4: with a public key loaded, `CryptoSigner.verify` on the non-hex
signature string `"zz"` raises `binascii.Error` (modelled `binasciiError`)
instead of returning `False`, because `binascii.unhexlify` runs outside the
`try` block; with no public key loaded it raises the configuration
`RuntimeError`.  This contradicts the claim (and the method's own docstring)
that a loaded-key `verify` returns `False` for malformed signatures and never
raises. -/
theorem verify_nonhex_signature_raises :
    CryptoSigner.verify (some ()) (fun _ _ _ => false) [] ['z', 'z']
      = Except.error PyError.binasciiError
    ∧ CryptoSigner.verify (some ()) (fun _ _ _ => false) [] ['z', 'z']
      ≠ Except.ok false
    ∧ CryptoSigner.verify (none : Option Unit) (fun _ _ _ => false) [] ['z', 'z']
      = Except.error PyError.runtimeError := by
  have h1 : CryptoSigner.verify (some ()) (fun _ _ _ => false) [] ['z', 'z']
      = Except.error PyError.binasciiError := rfl
  refine ⟨h1, ?_, rfl⟩
  rw [h1]
  intro hcontra
  exact Except.noConfusion hcontra

/-! ## Claims C5–C8 -/

theorem clamp01_bounds (x : ℚ) : 0 ≤ clamp01 x ∧ clamp01 x ≤ 1 :=
  ⟨le_max_left 0 _, max_le (by norm_num) (min_le_left 1 x)⟩

theorem jsdLoop_length (R : Type) (randint : R → Nat → Nat × R)
    (tryBody : List ℚ → Except Unit ℚ) (prices : List ℚ) (sampleN : Nat) :
    ∀ (n : Nat) (rng : R),
      (jsdLoop R randint tryBody prices sampleN n rng).length = n := by
  intro n
  induction n with
  | zero => intro rng; rfl
  | succ k ih =>
    intro rng
    simp only [jsdLoop, List.length_cons, ih]

theorem jsdLoop_mem_bounds (R : Type) (randint : R → Nat → Nat × R)
    (tryBody : List ℚ → Except Unit ℚ) (prices : List ℚ) (sampleN : Nat) :
    ∀ (n : Nat) (rng : R) (x : ℚ),
      x ∈ jsdLoop R randint tryBody prices sampleN n rng → 0 ≤ x ∧ x ≤ 1 := by
  intro n
  induction n with
  | zero => intro rng x hx; exact absurd hx (List.not_mem_nil x)
  | succ k ih =>
    intro rng x hx
    simp only [jsdLoop, List.mem_cons] at hx
    rcases hx with h | h
    · subst h; exact clamp01_bounds _
    · exact ih _ x h

/-- C5: `compute_jsd_distribution` is a pure function of its arguments — two
invocations with identical baseline, seed and knobs give identical output
lists — and all randomness flows through the one generator created inside
the call from `seed`: the result depends on the generator constructor
`mkRng` only through the state `mkRng seed`. -/
theorem compute_jsd_distribution_deterministic (R : Type)
    (mkRng mkRngAlt : Nat → R) (randint : R → Nat → Nat × R)
    (log1p log2 : ℚ → ℚ)
    (kdeEval : List ℚ → Option ℚ → List ℚ → Option (List ℚ))
    (df : DataFrame) (seed : Nat) (price_col : String) (n_bootstrap : Nat)
    (sample_size : Option Nat) (n_bins : Nat) (bw : Option ℚ)
    (log_transform : Bool) :
    compute_jsd_distribution R mkRng randint log1p log2 kdeEval df seed
        price_col n_bootstrap sample_size n_bins bw log_transform
      = compute_jsd_distribution R mkRng randint log1p log2 kdeEval df seed
        price_col n_bootstrap sample_size n_bins bw log_transform
    ∧ (mkRng seed = mkRngAlt seed →
        compute_jsd_distribution R mkRng randint log1p log2 kdeEval df seed
            price_col n_bootstrap sample_size n_bins bw log_transform
          = compute_jsd_distribution R mkRngAlt randint log1p log2 kdeEval df
            seed price_col n_bootstrap sample_size n_bins bw log_transform) := by
  refine ⟨rfl, fun h => ?_⟩
  simp only [compute_jsd_distribution, h]

/-- C5 witness: two invocations with identical arguments coincide, for two
definitionally equal seeded-generator constructors. -/
theorem compute_jsd_distribution_deterministic_witness :
    compute_jsd_distribution Unit (fun _ => ()) (fun r _ => (0, r)) id id
        (fun _ _ _ => none) ⟨["price"], fun _ => [some 1, some 2]⟩ 42 "price" 3
        none 4 none true
      = compute_jsd_distribution Unit (fun _s => ()) (fun r _ => (0, r)) id id
        (fun _ _ _ => none) ⟨["price"], fun _ => [some 1, some 2]⟩ 42 "price" 3
        none 4 none true :=
  (compute_jsd_distribution_deterministic Unit (fun _ => ()) (fun _s => ())
    (fun r _ => (0, r)) id id (fun _ _ _ => none)
    ⟨["price"], fun _ => [some 1, some 2]⟩ 42 "price" 3 none 4 none true).2 rfl

/-- C6: every successfully returned list has exactly `n_bootstrap` elements,
each in the closed interval `[0,1]`, for every baseline (empty, singleton,
all-equal and otherwise): the empty branch returns `n_bootstrap` zeros and
the bootstrap loop clamps each value with `max(0.0, min(1.0, jsd))`. -/
theorem compute_jsd_distribution_range_length (R : Type) (mkRng : Nat → R)
    (randint : R → Nat → Nat × R) (log1p log2 : ℚ → ℚ)
    (kdeEval : List ℚ → Option ℚ → List ℚ → Option (List ℚ))
    (df : DataFrame) (seed : Nat) (price_col : String) (n_bootstrap : Nat)
    (sample_size : Option Nat) (n_bins : Nat) (bw : Option ℚ)
    (log_transform : Bool) (l : List ℚ)
    (h : compute_jsd_distribution R mkRng randint log1p log2 kdeEval df seed
          price_col n_bootstrap sample_size n_bins bw log_transform
        = Except.ok l) :
    l.length = n_bootstrap ∧ ∀ x ∈ l, 0 ≤ x ∧ x ≤ 1 := by
  simp only [compute_jsd_distribution] at h
  split at h
  · split at h
    · have hl := Except.ok.inj h
      subst hl
      refine ⟨List.length_replicate _ _, fun x hx => ?_⟩
      have hx0 := List.eq_of_mem_replicate hx
      subst hx0
      exact ⟨le_refl 0, by norm_num⟩
    · have hl := Except.ok.inj h
      subst hl
      constructor
      · simp only [jsd_main]
        exact jsdLoop_length _ _ _ _ _ _ _
      · intro x hx
        simp only [jsd_main] at hx
        exact jsdLoop_mem_bounds _ _ _ _ _ _ _ x hx
  · exact absurd h (by simp)

/-- C6 witness: the theorem applied to a concrete run (all-NaN baseline,
`n_bootstrap = 3`). -/
theorem compute_jsd_distribution_range_length_witness :
    (List.replicate 3 (0 : ℚ)).length = 3
    ∧ ∀ x ∈ List.replicate 3 (0 : ℚ), 0 ≤ x ∧ x ≤ 1 :=
  compute_jsd_distribution_range_length Unit (fun _ => ()) (fun r _ => (0, r))
    id id (fun _ _ _ => none) ⟨["price"], fun _ => [none]⟩ 42 "price" 3 none 4
    none true (List.replicate 3 0) rfl

/-- C7: when the numeric column is empty after dropping NaNs,
`compute_jsd_distribution` returns exactly `n_bootstrap` zeros. -/
theorem compute_jsd_distribution_empty_baseline (R : Type) (mkRng : Nat → R)
    (randint : R → Nat → Nat × R) (log1p log2 : ℚ → ℚ)
    (kdeEval : List ℚ → Option ℚ → List ℚ → Option (List ℚ))
    (df : DataFrame) (seed : Nat) (price_col : String) (n_bootstrap : Nat)
    (sample_size : Option Nat) (n_bins : Nat) (bw : Option ℚ)
    (log_transform : Bool)
    (hcol : price_col ∈ df.columns)
    (hempty : (df.col price_col).filterMap id = []) :
    compute_jsd_distribution R mkRng randint log1p log2 kdeEval df seed
        price_col n_bootstrap sample_size n_bins bw log_transform
      = Except.ok (List.replicate n_bootstrap 0) := by
  have hp : effPrices log1p df price_col log_transform = [] := by
    simp only [effPrices, hempty, List.map_nil, ite_self]
  simp only [compute_jsd_distribution, hp, List.length_nil, if_pos hcol]
  rfl

/-- C7 witness: an empty numeric column with `n_bootstrap = 5` yields exactly
`[0.0, 0.0, 0.0, 0.0, 0.0]`. -/
theorem compute_jsd_distribution_empty_baseline_witness :
    compute_jsd_distribution Unit (fun _ => ()) (fun r _ => (0, r)) id id
        (fun _ _ _ => none) ⟨["price"], fun _ => [none, none]⟩ 7 "price" 5 none
        8 none true
      = Except.ok (List.replicate 5 0)
    ∧ List.replicate 5 (0 : ℚ) = [0, 0, 0, 0, 0] :=
  ⟨compute_jsd_distribution_empty_baseline Unit (fun _ => ()) (fun r _ => (0, r))
      id id (fun _ _ _ => none) ⟨["price"], fun _ => [none, none]⟩ 7 "price" 5
      none 8 none true (by simp) rfl,
   rfl⟩

/-- C8: in the bootstrap loop, a failing iteration (the `try` body raising,
modelled by `tryBody` returning `Except.error`) is recorded as the
conservative value `1.0` for that iteration and the loop continues: the
output always has exactly `n_bootstrap` elements for every `tryBody`, and a
failure at the head iteration contributes `1` followed by the remaining
iterations on the advanced generator state. -/
theorem jsdLoop_failure_recorded_as_one (R : Type)
    (randint : R → Nat → Nat × R) (tryBody : List ℚ → Except Unit ℚ)
    (prices : List ℚ) (sampleN : Nat) :
    (∀ (n : Nat) (rng : R),
      (jsdLoop R randint tryBody prices sampleN n rng).length = n)
    ∧ (∀ (n : Nat) (rng : R),
        tryBody ((drawIndices R randint prices.length sampleN rng).1.map
            (fun j => prices.getD j 0)) = Except.error () →
        jsdLoop R randint tryBody prices sampleN (n + 1) rng
          = 1 :: jsdLoop R randint tryBody prices sampleN n
              (drawIndices R randint prices.length sampleN rng).2) := by
  refine ⟨jsdLoop_length R randint tryBody prices sampleN, fun n rng hfail => ?_⟩
  simp only [jsdLoop, hfail]
  norm_num [clamp01]

/-- C8 witness: a concrete always-failing `tryBody` on a two-iteration
batch. -/
theorem jsdLoop_failure_recorded_as_one_witness :
    (fun _ : List ℚ => (Except.error () : Except Unit ℚ))
        ((drawIndices Unit (fun r _ => (0, r)) ([(1 : ℚ)]).length 1 ()).1.map
          (fun j => [(1 : ℚ)].getD j 0)) = Except.error ()
    ∧ jsdLoop Unit (fun r _ => (0, r)) (fun _ => Except.error ()) [1] 1 2 ()
      = 1 :: jsdLoop Unit (fun r _ => (0, r)) (fun _ => Except.error ()) [1] 1 1
          (drawIndices Unit (fun r _ => (0, r)) ([(1 : ℚ)]).length 1 ()).2 :=
  ⟨rfl,
   (jsdLoop_failure_recorded_as_one Unit (fun r _ => (0, r))
      (fun _ => Except.error ()) [1] 1).2 1 () rfl⟩

/-! ## Claim C9: canonicalization machinery -/

theorem renderMembers_eq (m : JMembers) :
    renderMembers m = m.toPairs.map (fun p => (p.1, renderJVal p.2)) :=
  match m with
  | .mnil => rfl
  | .mcons k v t => by
    simp [renderMembers, JMembers.toPairs, renderMembers_eq t]

theorem memberKeys_eq (m : JMembers) :
    m.toPairs.map Prod.fst = memberKeys m :=
  match m with
  | .mnil => rfl
  | .mcons k v t => by simp [JMembers.toPairs, memberKeys, memberKeys_eq t]

theorem mlength_toPairs (m : JMembers) :
    m.toPairs.length = JMembers.mlength m :=
  match m with
  | .mnil => rfl
  | .mcons k v t => by
    simp [JMembers.toPairs, JMembers.mlength, mlength_toPairs t, Nat.add_comm]

theorem lookupMember_mem {w : JVal} {k : String} : ∀ {m : JMembers},
    lookupMember k m = some w → (k, w) ∈ m.toPairs
  | .mnil, h => absurd h (by simp [lookupMember])
  | .mcons k2 v t, h => by
    simp only [lookupMember] at h
    by_cases hk : k2 = k
    · rw [if_pos hk] at h
      have hv := Option.some.inj h
      subst hk
      subst hv
      exact List.mem_cons_self _ _
    · rw [if_neg hk] at h
      exact List.mem_cons_of_mem _ (lookupMember_mem h)

theorem semEqSub_spec : ∀ {a b : JMembers}, semEqSub a b = true →
    ∀ k v, (k, v) ∈ a.toPairs →
      ∃ w, lookupMember k b = some w ∧ semEq v w = true
  | .mnil, b, _, k, v, hm => absurd hm (by simp [JMembers.toPairs])
  | .mcons k0 v0 t, b, h, k, v, hm => by
    simp only [semEqSub, Bool.and_eq_true] at h
    obtain ⟨hhead, htail⟩ := h
    rcases List.mem_cons.mp hm with heq | hmem
    · have hk : k0 = k := (congrArg Prod.fst heq).symm
      have hv : v0 = v := (congrArg Prod.snd heq).symm
      subst hk
      subst hv
      revert hhead
      cases hl : lookupMember k0 b with
      | none => intro hhead; exact absurd hhead (by simp)
      | some w => intro hhead; exact ⟨w, rfl, hhead⟩
    · exact semEqSub_spec htail k v hmem

theorem nodupKeysB_nodup : ∀ {m : JMembers}, nodupKeysB m = true →
    (memberKeys m).Nodup
  | .mnil, _ => List.nodup_nil
  | .mcons k v t, h => by
    simp only [nodupKeysB, Bool.and_eq_true, Bool.not_eq_true'] at h
    obtain ⟨hc, ht⟩ := h
    refine List.nodup_cons.mpr ⟨?_, nodupKeysB_nodup ht⟩
    intro hmem
    simp at hc
    exact hc hmem

theorem mem_toPairs_jsize {k : String} {v : JVal} : ∀ {m : JMembers},
    (k, v) ∈ m.toPairs → jsize v < msize m
  | .mnil, h => absurd h (by simp [JMembers.toPairs])
  | .mcons k2 v2 t, h => by
    rcases List.mem_cons.mp h with heq | hmem
    · have hv : v2 = v := (congrArg Prod.snd heq).symm
      subst hv
      simp only [msize]
      omega
    · have := mem_toPairs_jsize hmem
      simp only [msize]
      omega

theorem semEqObj_sorted_eq (N : Nat)
    (IH2 : ∀ v w, jsize v < N → semEq v w = true → renderJVal v = renderJVal w)
    (a b : JMembers) (hsz : msize a ≤ N)
    (hlen : JMembers.mlength a = JMembers.mlength b)
    (hna : nodupKeysB a = true) (hnb : nodupKeysB b = true)
    (hsub : semEqSub a b = true) :
    List.insertionSort keyLe (renderMembers a)
      = List.insertionSort keyLe (renderMembers b) := by
  have hsubset : ∀ p ∈ renderMembers a, p ∈ renderMembers b := by
    intro p hp
    rw [renderMembers_eq] at hp
    obtain ⟨⟨k, v⟩, hkv, hpv⟩ := List.mem_map.mp hp
    obtain ⟨w, hl, hsem⟩ := semEqSub_spec hsub k v hkv
    have hvw : renderJVal v = renderJVal w :=
      IH2 v w (lt_of_lt_of_le (mem_toPairs_jsize hkv) hsz) hsem
    have hwb : (k, w) ∈ b.toPairs := lookupMember_mem hl
    rw [renderMembers_eq]
    refine List.mem_map.mpr ⟨(k, w), hwb, ?_⟩
    rw [← hpv, ← hvw]
  have hkeysa : (renderMembers a).map Prod.fst = memberKeys a := by
    rw [renderMembers_eq, List.map_map]
    exact memberKeys_eq a
  have hnra : (renderMembers a).Nodup :=
    List.Nodup.of_map Prod.fst (hkeysa ▸ nodupKeysB_nodup hna)
  have hlen2 : (renderMembers a).length = (renderMembers b).length := by
    rw [renderMembers_eq, renderMembers_eq, List.length_map, List.length_map,
      mlength_toPairs, mlength_toPairs, hlen]
  obtain ⟨l, hperm, hsl⟩ := List.subperm_of_subset hnra hsubset
  have hll : l.length = (renderMembers b).length := by
    rw [hperm.length_eq, hlen2]
  have hlrb : l = renderMembers b := hsl.eq_of_length hll
  have hperm2 : List.Perm (renderMembers a) (renderMembers b) := by
    rw [← hlrb]
    exact hperm.symm
  have hsp : List.Perm (List.insertionSort keyLe (renderMembers a))
      (List.insertionSort keyLe (renderMembers b)) :=
    ((List.perm_insertionSort keyLe (renderMembers a)).trans hperm2).trans
      (List.perm_insertionSort keyLe (renderMembers b)).symm
  have hstrict : ∀ m : JMembers, nodupKeysB m = true →
      List.Sorted keyLt (List.insertionSort keyLe (renderMembers m)) := by
    intro m hm
    have hsorted : List.Sorted keyLe (List.insertionSort keyLe (renderMembers m)) :=
      List.sorted_insertionSort keyLe (renderMembers m)
    have hkeysm : (renderMembers m).map Prod.fst = memberKeys m := by
      rw [renderMembers_eq, List.map_map]
      exact memberKeys_eq m
    have hnodupkeys :
        ((List.insertionSort keyLe (renderMembers m)).map Prod.fst).Nodup := by
      have hpk : List.Perm
          ((List.insertionSort keyLe (renderMembers m)).map Prod.fst)
          ((renderMembers m).map Prod.fst) :=
        (List.perm_insertionSort keyLe (renderMembers m)).map Prod.fst
      exact (hpk.nodup_iff).mpr (hkeysm ▸ nodupKeysB_nodup hm)
    have hpne : List.Pairwise (fun p q : String × List Char => p.1 ≠ q.1)
        (List.insertionSort keyLe (renderMembers m)) :=
      (List.pairwise_map).mp hnodupkeys
    exact List.Pairwise.imp (fun h => Or.inl (lt_of_le_of_ne h.1 h.2))
      (hsorted.and hpne)
  exact List.eq_of_perm_of_sorted hsp (hstrict a hna) (hstrict b hnb)

theorem jsize_pos (v : JVal) : 1 ≤ jsize v := by
  cases v <;> simp [jsize]

theorem semEqItems_renderItems (N : Nat)
    (IH2 : ∀ v w, jsize v < N → semEq v w = true → renderJVal v = renderJVal w) :
    ∀ (xs ys : JItems), isize xs ≤ N → semEqItems xs ys = true →
      renderItems xs = renderItems ys
  | .inil, .inil, _, _ => rfl
  | .inil, .icons _ _, _, h => absurd h (by simp [semEqItems])
  | .icons _ _, .inil, _, h => absurd h (by simp [semEqItems])
  | .icons x xs, .icons y ys, hsz, h => by
    simp only [semEqItems, Bool.and_eq_true] at h
    obtain ⟨h1, h2⟩ := h
    have hx : renderJVal x = renderJVal y :=
      IH2 x y (by simp only [isize] at hsz; omega) h1
    have hxs := semEqItems_renderItems N IH2 xs ys
      (by simp only [isize] at hsz; omega) h2
    simp [renderItems, hx, hxs]

theorem semEq_render (fuel : Nat) :
    ∀ (a b : JVal), jsize a ≤ fuel → semEq a b = true →
      renderJVal a = renderJVal b := by
  induction fuel with
  | zero =>
    intro a b hsz _
    exact absurd (lt_of_lt_of_le (jsize_pos a) hsz) (by norm_num)
  | succ f ihf =>
    intro a b hsz hsem
    have IH2 : ∀ v w, jsize v < f + 1 → semEq v w = true →
        renderJVal v = renderJVal w :=
      fun v w hlt hvw => ihf v w (Nat.lt_succ_iff.mp hlt) hvw
    cases a <;> cases b <;>
      first
      | (exfalso; revert hsem; simp [semEq]; done)
      | skip
    · rfl
    · rename_i x y
      have hxy : x = y := by simpa [semEq] using hsem
      rw [hxy]
    · rename_i x y
      have hxy : x = y := by simpa [semEq] using hsem
      rw [hxy]
    · rename_i x y
      have hxy : x = y := by simpa [semEq] using hsem
      rw [hxy]
    · rename_i xs ys
      have h2 : semEqItems xs ys = true := by simpa [semEq] using hsem
      have hsz2 : isize xs ≤ f + 1 := by simp only [jsize] at hsz; omega
      have hr := semEqItems_renderItems (f + 1) IH2 xs ys hsz2 h2
      simp only [renderJVal, hr]
    · rename_i ma mb
      have h2 := hsem
      simp only [semEq, Bool.and_eq_true, beq_iff_eq] at h2
      obtain ⟨⟨⟨hlen, hna⟩, hnb⟩, hsub⟩ := h2
      have hsz2 : msize ma ≤ f + 1 := by simp only [jsize] at hsz; omega
      have hr := semEqObj_sorted_eq (f + 1) IH2 ma mb hsz2 hlen hna hnb hsub
      simp only [renderJVal, hr]

/-- C9: `canonical_bytes` depends only on the payload's semantic value:
semantically equal payloads — the same key→value mapping at every nesting
level, whatever the insertion order of the keys — serialize to identical
byte sequences (keys sorted at every level, minimal separators, UTF-8). -/
theorem canonical_bytes_semEq (a b : JVal) (h : semEq a b = true) :
    canonical_bytes a = canonical_bytes b := by
  unfold canonical_bytes
  rw [semEq_render (jsize a) a b le_rfl h]

/-- C9 witness: two object payloads with the same members inserted in
opposite orders canonicalize identically. -/
theorem canonical_bytes_semEq_witness :
    semEq
        (JVal.jobj (JMembers.mcons "b" (JVal.jint 2)
          (JMembers.mcons "a" (JVal.jint 1) JMembers.mnil)))
        (JVal.jobj (JMembers.mcons "a" (JVal.jint 1)
          (JMembers.mcons "b" (JVal.jint 2) JMembers.mnil))) = true
    ∧ canonical_bytes
        (JVal.jobj (JMembers.mcons "b" (JVal.jint 2)
          (JMembers.mcons "a" (JVal.jint 1) JMembers.mnil)))
      = canonical_bytes
        (JVal.jobj (JMembers.mcons "a" (JVal.jint 1)
          (JMembers.mcons "b" (JVal.jint 2) JMembers.mnil))) :=
  ⟨rfl, canonical_bytes_semEq _ _ rfl⟩

/-! ## Claim C10: reader/renderer round trip -/

theorem hexDigitVal_hexLowerChar (d : Nat) (h : d < 16) :
    hexDigitVal (hexLowerChar d) = some d := by
  interval_cases d <;> rfl

theorem digitChar_toNat (d : Nat) (h : d < 10) : (digitChar d).toNat = 48 + d := by
  interval_cases d <;> rfl

theorem digitChar_isDigit (d : Nat) (h : d < 10) : (digitChar d).isDigit = true := by
  interval_cases d <;> rfl

theorem parseHex4_spec (n : Nat) (h : n < 32) (rest : List Char) :
    parseHex4 ('0' :: '0' :: hexLowerChar (n / 16) :: hexLowerChar (n % 16) :: rest)
      = some (n, rest) := by
  simp only [parseHex4, hexDigitVal_hexLowerChar (n / 16) (by omega),
    hexDigitVal_hexLowerChar (n % 16) (by omega),
    show hexDigitVal '0' = some 0 from rfl]
  have : ((0 * 16 + 0) * 16 + n / 16) * 16 + n % 16 = n := by omega
  rw [this]

theorem escapeChar_length_pos (c : Char) : 1 ≤ (escapeChar c).length := by
  unfold escapeChar
  split_ifs <;> simp

theorem escFlatten_length (cs : List Char) :
    cs.length ≤ ((cs.map escapeChar).flatten).length := by
  induction cs with
  | nil => simp
  | cons c cs2 ih =>
    simp only [List.map_cons, List.flatten_cons, List.length_append, List.length_cons]
    have := escapeChar_length_pos c
    omega

theorem parseStringBody_cons (f : Nat) (c : Char) (tail : List Char) :
    parseStringBody (f + 1) (escapeChar c ++ tail) =
      match parseStringBody f tail with
      | some (cs, rest) => some (c :: cs, rest)
      | none => none := by
  unfold escapeChar
  split_ifs with h1 h2 h3 h4 h5 h6 h7 h8
  · subst h1; simp [parseStringBody]
  · subst h2; simp [parseStringBody]
  · subst h3; simp [parseStringBody]
  · subst h4; simp [parseStringBody]
  · subst h5; simp [parseStringBody]
  · subst h6; simp [parseStringBody]
  · subst h7; simp [parseStringBody]
  · have hv : (c.toNat).isValidChar := Or.inl (by omega)
    simp only [List.cons_append, List.nil_append, parseStringBody,
      parseHex4_spec c.toNat h8 tail]
    simp [hv, Char.ofNat_toNat]
  · simp only [List.cons_append, List.nil_append]
    simp only [parseStringBody]
    rw [if_neg h1, if_neg h2]

theorem parseStringBody_render :
    ∀ (cs : List Char) (fuel : Nat) (rest : List Char), cs.length < fuel →
      parseStringBody fuel ((cs.map escapeChar).flatten ++ '"' :: rest)
        = some (cs, rest) := by
  intro cs
  induction cs with
  | nil =>
    intro fuel rest h
    cases fuel with
    | zero => omega
    | succ f => simp [parseStringBody]
  | cons c cs2 ih =>
    intro fuel rest h
    cases fuel with
    | zero => omega
    | succ f =>
      simp only [List.map_cons, List.flatten_cons, List.append_assoc]
      rw [parseStringBody_cons f c _]
      rw [ih f rest (by simp at h; omega)]

theorem natDigitsAux_digits :
    ∀ (fuel n : Nat), n < fuel → ∀ c ∈ natDigitsAux fuel n, c.isDigit = true := by
  intro fuel
  induction fuel with
  | zero => intro n h; omega
  | succ f ih =>
    intro n _ c hc
    simp only [natDigitsAux] at hc
    by_cases h10 : n < 10
    · rw [if_pos h10] at hc
      simp at hc
      subst hc
      exact digitChar_isDigit n h10
    · rw [if_neg h10] at hc
      rcases List.mem_append.mp hc with hm | hm
      · exact ih (n / 10) (by omega) c hm
      · simp at hm
        subst hm
        exact digitChar_isDigit _ (Nat.mod_lt n (by omega))

theorem digitsVal_append_single (l : List Char) (c : Char) :
    digitsVal (l ++ [c]) = digitsVal l * 10 + (c.toNat - 48) := by
  simp [digitsVal, List.foldl_append]

theorem digitsVal_natDigitsAux :
    ∀ (fuel n : Nat), n < fuel → digitsVal (natDigitsAux fuel n) = n := by
  intro fuel
  induction fuel with
  | zero => intro n h; omega
  | succ f ih =>
    intro n _
    simp only [natDigitsAux]
    by_cases h10 : n < 10
    · rw [if_pos h10]
      simp [digitsVal, digitChar_toNat n h10]
    · rw [if_neg h10]
      rw [digitsVal_append_single, ih (n / 10) (by omega),
        digitChar_toNat _ (Nat.mod_lt n (by omega))]
      omega

theorem natDigitsAux_ne_nil :
    ∀ (fuel n : Nat), n < fuel → natDigitsAux fuel n ≠ [] := by
  intro fuel
  induction fuel with
  | zero => intro n h; omega
  | succ f _ =>
    intro n _
    simp only [natDigitsAux]
    by_cases h10 : n < 10
    · rw [if_pos h10]; simp
    · rw [if_neg h10]; simp

theorem numStopB_not_digit {rest : List Char} (h : numStopB rest = true) :
    rest = [] ∨ ∃ c t, rest = c :: t ∧ c.isDigit = false := by
  cases rest with
  | nil => exact Or.inl rfl
  | cons c t =>
    refine Or.inr ⟨c, t, rfl, ?_⟩
    simp only [numStopB, Bool.or_eq_true, decide_eq_true_eq] at h
    rcases h with (h | h) | h <;> subst h <;> rfl

theorem takeDigits_append (ds rest : List Char)
    (hds : ∀ c ∈ ds, c.isDigit = true) (hrest : numStopB rest = true) :
    takeDigits (ds ++ rest) = (ds, rest) := by
  induction ds with
  | nil =>
    simp only [List.nil_append]
    rcases numStopB_not_digit hrest with hr | ⟨c, t, hr, hcd⟩
    · subst hr; rfl
    · subst hr
      simp [takeDigits, hcd]
  | cons d ds2 ih =>
    have hd : d.isDigit = true := hds d (List.mem_cons_self _ _)
    have ih2 := ih (fun c hc => hds c (List.mem_cons_of_mem _ hc))
    simp only [List.cons_append, takeDigits, hd, if_true, List.append_eq, ih2]

theorem isDigit_ne_hyphen {c : Char} (h : c.isDigit = true) : c ≠ '-' := by
  intro hc
  subst hc
  exact absurd h (by decide)

theorem parseIntFrom_intRepr (n : Int) (rest : List Char)
    (hrest : numStopB rest = true) :
    parseIntFrom (intRepr n ++ rest) = some (JVal.jint n, rest) := by
  unfold intRepr
  by_cases hneg : n < 0
  · rw [if_pos hneg]
    simp only [natDigits, List.cons_append, parseIntFrom,
      takeDigits_append (natDigitsAux ((-n).toNat + 1) (-n).toNat) rest
        (natDigitsAux_digits _ _ (Nat.lt_succ_self _)) hrest]
    rw [if_neg (natDigitsAux_ne_nil _ _ (Nat.lt_succ_self _))]
    rw [digitsVal_natDigitsAux _ _ (Nat.lt_succ_self _)]
    have hn : -(((-n).toNat : Int)) = n := by omega
    rw [hn]
  · rw [if_neg hneg]
    obtain ⟨c, t, hct⟩ : ∃ c t, natDigitsAux (n.toNat + 1) n.toNat = c :: t := by
      cases hd : natDigitsAux (n.toNat + 1) n.toNat with
      | nil => exact absurd hd (natDigitsAux_ne_nil _ _ (Nat.lt_succ_self _))
      | cons c t => exact ⟨c, t, rfl⟩
    have hcd : c.isDigit = true :=
      natDigitsAux_digits _ _ (Nat.lt_succ_self _) c (by rw [hct]; simp)
    have hne : c ≠ '-' := isDigit_ne_hyphen hcd
    have hct2 : natDigits n.toNat = c :: t := hct
    rw [hct2]
    simp only [List.cons_append, parseIntFrom]
    split
    · rename_i t1 heq
      injection heq with hc _
      exact absurd hc hne
    · rw [show c :: (t ++ rest) = (c :: t) ++ rest from rfl]
      simp only [takeDigits_append (c :: t) rest
        (by rw [← hct]; exact natDigitsAux_digits _ _ (Nat.lt_succ_self _)) hrest]
      rw [if_neg (by simp)]
      rw [← hct, digitsVal_natDigitsAux _ _ (Nat.lt_succ_self _)]
      have hn : ((n.toNat : Int)) = n := by omega
      rw [hn]

theorem hexLowerChar_ne_nl (d : Nat) (h : d < 16) : hexLowerChar d ≠ '\n' := by
  interval_cases d <;> decide

theorem escapeChar_ne_nl (c : Char) : ∀ ch ∈ escapeChar c, ch ≠ '\n' := by
  unfold escapeChar
  split_ifs with h1 h2 h3 h4 h5 h6 h7 h8
  · intro ch hch heq; subst heq; exact absurd hch (by decide)
  · intro ch hch heq; subst heq; exact absurd hch (by decide)
  · intro ch hch heq; subst heq; exact absurd hch (by decide)
  · intro ch hch heq; subst heq; exact absurd hch (by decide)
  · intro ch hch heq; subst heq; exact absurd hch (by decide)
  · intro ch hch heq; subst heq; exact absurd hch (by decide)
  · intro ch hch heq; subst heq; exact absurd hch (by decide)
  · intro ch hch heq
    subst heq
    simp at hch
    rcases hch with h | h
    · exact hexLowerChar_ne_nl _ (by omega) h.symm
    · exact hexLowerChar_ne_nl _ (Nat.mod_lt _ (by omega)) h.symm
  · intro ch hch heq
    subst heq
    simp at hch
    exact h3 hch.symm

theorem quoteChars_ne_nl (s : String) : '\n' ∉ quoteChars s := by
  unfold quoteChars
  intro h
  rcases List.mem_cons.mp h with h | h
  · exact absurd h.symm (by decide)
  · rcases List.mem_append.mp h with h | h
    · obtain ⟨l, hl, hmem⟩ := List.mem_flatten.mp h
      obtain ⟨c, _, hc⟩ := List.mem_map.mp hl
      subst hc
      exact escapeChar_ne_nl c _ hmem rfl
    · simp at h

theorem isDigit_ne_nl {c : Char} (h : c.isDigit = true) : c ≠ '\n' := by
  intro hc
  subst hc
  exact absurd h (by decide)

theorem intRepr_ne_nl (n : Int) : '\n' ∉ intRepr n := by
  unfold intRepr
  split_ifs with h
  · intro hm
    rcases List.mem_cons.mp hm with hm | hm
    · exact absurd hm.symm (by decide)
    · exact isDigit_ne_nl
        (natDigitsAux_digits _ _ (Nat.lt_succ_self _) _ hm) rfl
  · intro hm
    exact isDigit_ne_nl (natDigitsAux_digits _ _ (Nat.lt_succ_self _) _ hm) rfl

theorem joinComma_ne_nl :
    ∀ (L : List (List Char)), (∀ s ∈ L, '\n' ∉ s) → '\n' ∉ joinComma L := by
  intro L
  induction L with
  | nil => intro _; simp [joinComma]
  | cons x L ih =>
    intro hL
    cases L with
    | nil => exact hL x (List.mem_cons_self _ _)
    | cons y t =>
      simp only [joinComma]
      intro hm
      rcases List.mem_append.mp hm with hm | hm
      · exact hL x (List.mem_cons_self _ _) hm
      · rcases List.mem_cons.mp hm with hm | hm
        · exact absurd hm.symm (by decide)
        · exact ih (fun s hs => hL s (List.mem_cons_of_mem _ hs)) hm

mutual
theorem renderJVal_ne_nl : ∀ (v : JVal), '\n' ∉ renderJVal v
  | .jnull => by decide
  | .jbool true => by decide
  | .jbool false => by decide
  | .jint n => intRepr_ne_nl n
  | .jstr s => quoteChars_ne_nl s
  | .jarr xs => by
    simp only [renderJVal]
    intro hm
    rcases List.mem_cons.mp hm with hm | hm
    · exact absurd hm.symm (by decide)
    · rcases List.mem_append.mp hm with hm | hm
      · exact joinComma_ne_nl _ (renderItems_ne_nl xs) hm
      · simp at hm
  | .jobj kvs => by
    simp only [renderJVal]
    intro hm
    rcases List.mem_cons.mp hm with hm | hm
    · exact absurd hm.symm (by decide)
    · rcases List.mem_append.mp hm with hm | hm
      · unfold joinPairs at hm
        refine joinComma_ne_nl _ ?_ hm
        intro s hs
        obtain ⟨p, hp, hps⟩ := List.mem_map.mp hs
        have hpm : p ∈ renderMembers kvs := by
          rw [← List.mem_insertionSort keyLe]
          exact hp
        subst hps
        unfold renderPair
        intro hx
        rcases List.mem_append.mp hx with hx | hx
        · exact quoteChars_ne_nl _ hx
        · rcases List.mem_cons.mp hx with hx | hx
          · exact absurd hx.symm (by decide)
          · exact renderMembers_ne_nl kvs p hpm hx
      · simp at hm
theorem renderItems_ne_nl : ∀ (xs : JItems), ∀ s ∈ renderItems xs, '\n' ∉ s
  | .inil => by simp [renderItems]
  | .icons v t => by
    intro s hs
    rcases List.mem_cons.mp hs with hs | hs
    · subst hs; exact renderJVal_ne_nl v
    · exact renderItems_ne_nl t s hs
theorem renderMembers_ne_nl :
    ∀ (m : JMembers), ∀ p ∈ renderMembers m, '\n' ∉ p.2
  | .mnil => by simp [renderMembers]
  | .mcons k v t => by
    intro p hp
    rcases List.mem_cons.mp hp with hp | hp
    · subst hp; exact renderJVal_ne_nl v
    · exact renderMembers_ne_nl t p hp
end

theorem splitLines_ne_nil (l : List Char) : splitLines l ≠ [] := by
  induction l with
  | nil => simp [splitLines]
  | cons c t _ =>
    simp only [splitLines, List.foldr_cons]
    split_ifs <;> simp

theorem splitLines_cons_nl (t : List Char) :
    splitLines ('\n' :: t) = [] :: splitLines t := by
  simp [splitLines]

theorem splitLines_cons (c : Char) (t : List Char) (h : c ≠ '\n') :
    splitLines (c :: t)
      = (c :: (splitLines t).headD []) :: (splitLines t).tail := by
  simp [splitLines, h]

theorem splitLines_seg (seg rest : List Char) (h : '\n' ∉ seg) :
    splitLines (seg ++ '\n' :: rest) = seg :: splitLines rest := by
  induction seg with
  | nil => simp [splitLines_cons_nl]
  | cons c s ih =>
    have hc : c ≠ '\n' := fun hc => h (hc ▸ List.mem_cons_self _ _)
    have hs : '\n' ∉ s := fun hm => h (List.mem_cons_of_mem _ hm)
    rw [List.cons_append, splitLines_cons c _ hc, ih hs]
    simp

theorem two_le_splitLines_nlterm (l : List Char) :
    2 ≤ (splitLines (l ++ ['\n'])).length := by
  induction l with
  | nil => simp [splitLines]
  | cons c t ih =>
    by_cases hc : c = '\n'
    · subst hc
      rw [List.cons_append, splitLines_cons_nl]
      have := List.length_pos.mpr (splitLines_ne_nil (t ++ ['\n']))
      simp only [List.length_cons]
      omega
    · rw [List.cons_append, splitLines_cons c _ hc]
      simp only [List.length_cons, List.length_tail]
      omega

theorem splitLines_nlterm_append (f2 rest : List Char) :
    splitLines ((f2 ++ ['\n']) ++ rest)
      = (splitLines (f2 ++ ['\n'])).dropLast ++ splitLines rest := by
  induction f2 with
  | nil =>
    simp only [List.nil_append]
    rw [show ['\n'] ++ rest = '\n' :: rest from rfl, splitLines_cons_nl]
    simp [splitLines]
  | cons c t ih =>
    by_cases hc : c = '\n'
    · subst hc
      rw [List.cons_append, List.cons_append, splitLines_cons_nl,
        splitLines_cons_nl, ih,
        List.dropLast_cons_of_ne_nil (splitLines_ne_nil (t ++ ['\n']))]
      simp
    · have h2 := two_le_splitLines_nlterm t
      obtain ⟨t0, t1, ts, hS⟩ :
          ∃ t0 t1 ts, splitLines (t ++ ['\n']) = t0 :: t1 :: ts := by
        cases hS : splitLines (t ++ ['\n']) with
        | nil => exact absurd hS (splitLines_ne_nil _)
        | cons t0 S1 =>
          cases S1 with
          | nil => rw [hS] at h2; simp at h2
          | cons t1 ts => exact ⟨t0, t1, ts, rfl⟩
      rw [List.cons_append, List.cons_append,
        splitLines_cons c ((t ++ ['\n']) ++ rest) hc,
        splitLines_cons c (t ++ ['\n']) hc, ih, hS]
      simp [List.dropLast]

theorem joinComma_length :
    ∀ (L : List (List Char)), L ≠ [] →
      (joinComma L).length = (L.map List.length).sum + (L.length - 1)
  | [], h => absurd rfl h
  | [x], _ => by simp [joinComma]
  | x :: y :: t, _ => by
    have := joinComma_length (y :: t) (by simp)
    simp only [joinComma, List.length_append, List.length_cons, this,
      List.map_cons, List.sum_cons]
    omega

theorem joinPairs_length_perm (l₁ l₂ : List (String × List Char))
    (h : List.Perm l₁ l₂) : (joinPairs l₁).length = (joinPairs l₂).length := by
  cases l₁ with
  | nil =>
    have : l₂ = [] := h.nil_eq.symm
    rw [this]
  | cons p t =>
    have h1 : p :: t ≠ [] := by simp
    have h2 : l₂ ≠ [] := by
      intro h0
      subst h0
      exact absurd h.symm.nil_eq (by simp)
    unfold joinPairs
    rw [joinComma_length _ (by simp), joinComma_length _ (by simpa using h2)]
    have hsum : ((p :: t).map renderPair |>.map List.length).sum
        = (l₂.map renderPair |>.map List.length).sum := by
      have hp2 : List.Perm (((p :: t).map renderPair).map List.length)
          ((l₂.map renderPair).map List.length) := (h.map renderPair).map List.length
      exact hp2.sum_eq
    rw [hsum]
    simp only [List.length_map, h.length_eq]

theorem sortedKeysB_chain :
    ∀ (m : JMembers), sortedKeysB m = true →
      List.Chain' (fun a b : String => a ≤ b) (memberKeys m)
  | .mnil, _ => by simp [memberKeys]
  | .mcons _ _ .mnil, _ => by simp [memberKeys]
  | .mcons k v (.mcons k2 v2 t2), h => by
    simp only [sortedKeysB, Bool.and_eq_true, decide_eq_true_eq] at h
    obtain ⟨hk, ht⟩ := h
    have hrec := sortedKeysB_chain (.mcons k2 v2 t2) ht
    simp only [memberKeys] at hrec ⊢
    exact (List.chain'_cons).mpr ⟨hk, hrec⟩

theorem sortedKeysB_pairwise (m : JMembers) (h : sortedKeysB m = true) :
    List.Pairwise keyLe (renderMembers m) := by
  have hchain := sortedKeysB_chain m h
  have hpw : List.Pairwise (fun a b : String => a ≤ b) (memberKeys m) :=
    (List.chain'_iff_pairwise).mp hchain
  rw [← memberKeys_eq] at hpw
  have hpw2 : List.Pairwise (fun p q : String × JVal => p.1 ≤ q.1) m.toPairs :=
    (List.pairwise_map).mp hpw
  rw [renderMembers_eq]
  exact (List.pairwise_map).mpr hpw2

theorem insertionSort_renderMembers_sorted (m : JMembers)
    (h : sortedKeysB m = true) :
    List.insertionSort keyLe (renderMembers m) = renderMembers m :=
  List.Sorted.insertionSort_eq (sortedKeysB_pairwise m h)

theorem renderMembers_fromPairs (l : List (String × JVal)) :
    renderMembers (fromPairs l) = l.map (fun p => (p.1, renderJVal p.2)) := by
  induction l with
  | nil => rfl
  | cons p t ih =>
    cases p with
    | mk k v => simp [fromPairs, renderMembers, ih]

theorem toPairs_fromPairs (l : List (String × JVal)) :
    (fromPairs l).toPairs = l := by
  induction l with
  | nil => rfl
  | cons p t ih =>
    cases p with
    | mk k v => simp [fromPairs, JMembers.toPairs, ih]

theorem map_orderedInsert (a : String × JVal) (l : List (String × JVal)) :
    (List.orderedInsert keyLeJ a l).map (fun p => (p.1, renderJVal p.2))
      = List.orderedInsert keyLe (a.1, renderJVal a.2)
        (l.map (fun p => (p.1, renderJVal p.2))) := by
  induction l with
  | nil => rfl
  | cons b t ih =>
    simp only [List.orderedInsert, List.map_cons]
    by_cases h : keyLeJ a b
    · rw [if_pos h,
        if_pos (show keyLe (a.1, renderJVal a.2) (b.1, renderJVal b.2) from h)]
      simp
    · rw [if_neg h,
        if_neg (show ¬keyLe (a.1, renderJVal a.2) (b.1, renderJVal b.2) from h)]
      simp [ih]

theorem map_insertionSort (l : List (String × JVal)) :
    (List.insertionSort keyLeJ l).map (fun p => (p.1, renderJVal p.2))
      = List.insertionSort keyLe (l.map (fun p => (p.1, renderJVal p.2))) := by
  induction l with
  | nil => rfl
  | cons a t ih =>
    rw [List.insertionSort, List.map_cons, List.insertionSort, ← ih,
      map_orderedInsert]

theorem renderMembers_sortMembers (m : JMembers) :
    renderMembers (sortMembers m)
      = List.insertionSort keyLe (renderMembers m) := by
  unfold sortMembers
  rw [renderMembers_fromPairs, map_insertionSort, ← renderMembers_eq]

mutual
theorem render_normalize : ∀ (v : JVal), renderJVal (normalize v) = renderJVal v
  | .jnull => rfl
  | .jbool _ => rfl
  | .jint _ => rfl
  | .jstr _ => rfl
  | .jarr xs => by
    simp only [normalize, renderJVal, renderItems_normalize xs]
  | .jobj kvs => by
    simp only [normalize, renderJVal]
    rw [renderMembers_sortMembers, renderMembers_normalize kvs]
    rw [List.Sorted.insertionSort_eq
      (List.sorted_insertionSort keyLe (renderMembers kvs))]
theorem renderItems_normalize :
    ∀ (xs : JItems), renderItems (normItems xs) = renderItems xs
  | .inil => rfl
  | .icons v t => by
    simp only [normItems, renderItems, render_normalize v,
      renderItems_normalize t]
theorem renderMembers_normalize :
    ∀ (m : JMembers), renderMembers (normMembers m) = renderMembers m
  | .mnil => rfl
  | .mcons k v t => by
    simp only [normMembers, renderMembers, render_normalize v,
      renderMembers_normalize t]
end

theorem sorted_fromPairs :
    ∀ (l : List (String × JVal)), List.Pairwise keyLeJ l →
      sortedKeysB (fromPairs l) = true
  | [], _ => rfl
  | [p], _ => by cases p; rfl
  | p :: q :: t, h => by
    have hpq : keyLeJ p q := (List.pairwise_cons.mp h).1 q (List.mem_cons_self _ _)
    have ht := sorted_fromPairs (q :: t) (List.pairwise_cons.mp h).2
    cases p with
    | mk kp vp =>
      cases q with
      | mk kq vq =>
        simp only [fromPairs] at ht ⊢
        simp only [sortedKeysB, Bool.and_eq_true, decide_eq_true_eq]
        exact ⟨hpq, ht⟩

theorem isNormalMembers_fromPairs :
    ∀ (l : List (String × JVal)), (∀ p ∈ l, isNormalB p.2 = true) →
      isNormalMembers (fromPairs l) = true
  | [], _ => rfl
  | p :: t, h => by
    cases p with
    | mk k v =>
      simp only [fromPairs, isNormalMembers, Bool.and_eq_true]
      exact ⟨h (k, v) (List.mem_cons_self _ _),
        isNormalMembers_fromPairs t (fun q hq => h q (List.mem_cons_of_mem _ hq))⟩

mutual
theorem isNormal_normalize : ∀ (v : JVal), isNormalB (normalize v) = true
  | .jnull => rfl
  | .jbool _ => rfl
  | .jint _ => rfl
  | .jstr _ => rfl
  | .jarr xs => by
    simp only [normalize, isNormalB, isNormalItems_normItems xs]
  | .jobj kvs => by
    simp only [normalize, isNormalB, Bool.and_eq_true]
    refine ⟨?_, ?_⟩
    · unfold sortMembers
      exact sorted_fromPairs _ (List.sorted_insertionSort keyLeJ _)
    · unfold sortMembers
      apply isNormalMembers_fromPairs
      intro p hp
      have hp2 : p ∈ (normMembers kvs).toPairs := by
        rw [← List.mem_insertionSort keyLeJ]
        exact hp
      exact normMembers_vals_normal kvs p hp2
theorem isNormalItems_normItems :
    ∀ (xs : JItems), isNormalItems (normItems xs) = true
  | .inil => rfl
  | .icons v t => by
    simp only [normItems, isNormalItems, Bool.and_eq_true]
    exact ⟨isNormal_normalize v, isNormalItems_normItems t⟩
theorem normMembers_vals_normal :
    ∀ (m : JMembers), ∀ p ∈ (normMembers m).toPairs, isNormalB p.2 = true
  | .mnil => by simp [normMembers, JMembers.toPairs]
  | .mcons k v t => by
    intro p hp
    simp only [normMembers, JMembers.toPairs] at hp
    rcases List.mem_cons.mp hp with hp | hp
    · subst hp
      exact isNormal_normalize v
    · exact normMembers_vals_normal t p hp
end

theorem isDigit_not_ws {c : Char} (h : c.isDigit = true) : isWs c = false := by
  by_cases h1 : c = ' '
  · subst h1; exact absurd h (by decide)
  by_cases h2 : c = '\t'
  · subst h2; exact absurd h (by decide)
  by_cases h3 : c = '\n'
  · subst h3; exact absurd h (by decide)
  by_cases h4 : c = '\r'
  · subst h4; exact absurd h (by decide)
  simp [isWs, h1, h2, h3, h4]

theorem isDigit_head_facts {c : Char} (h : c.isDigit = true) :
    isWs c = false ∧ c ≠ ']' ∧ c ≠ '\x7d' ∧ c ≠ 'n' ∧ c ≠ 't' ∧ c ≠ 'f'
      ∧ c ≠ '"' ∧ c ≠ '[' ∧ c ≠ '\x7b' := by
  refine ⟨isDigit_not_ws h, ?_, ?_, ?_, ?_, ?_, ?_, ?_, ?_⟩ <;>
    (intro heq; subst heq; exact absurd h (by decide))

theorem intRepr_ne_nil (n : Int) : intRepr n ≠ [] := by
  unfold intRepr
  split_ifs
  · simp
  · exact natDigitsAux_ne_nil _ _ (Nat.lt_succ_self _)

theorem two_le_quoteChars (s : String) : 2 ≤ (quoteChars s).length := by
  unfold quoteChars
  simp

theorem render_head (v : JVal) :
    ∃ c t, renderJVal v = c :: t ∧ isWs c = false ∧ c ≠ ']' ∧ c ≠ '\x7d' := by
  cases v with
  | jnull => exact ⟨'n', _, rfl, rfl, by decide, by decide⟩
  | jbool b =>
    cases b with
    | true => refine ⟨'t', _, rfl, rfl, by decide, by decide⟩
    | false => refine ⟨'f', _, rfl, rfl, by decide, by decide⟩
  | jint n =>
    show ∃ c t, intRepr n = c :: t ∧ _
    unfold intRepr
    split_ifs with hneg
    · exact ⟨'-', _, rfl, by decide, by decide, by decide⟩
    · obtain ⟨c, t, hct⟩ : ∃ c t, natDigitsAux (n.toNat + 1) n.toNat = c :: t := by
        cases hd : natDigitsAux (n.toNat + 1) n.toNat with
        | nil => exact absurd hd (natDigitsAux_ne_nil _ _ (Nat.lt_succ_self _))
        | cons c t => exact ⟨c, t, rfl⟩
      have hcd : c.isDigit = true :=
        natDigitsAux_digits _ _ (Nat.lt_succ_self _) c (by rw [hct]; simp)
      obtain ⟨hws, hbr, hbc, _⟩ := isDigit_head_facts hcd
      exact ⟨c, t, hct, hws, hbr, hbc⟩
  | jstr s => exact ⟨'"', _, rfl, by decide, by decide, by decide⟩
  | jarr xs => exact ⟨'[', _, rfl, by decide, by decide, by decide⟩
  | jobj kvs => exact ⟨'\x7b', _, rfl, by decide, by decide, by decide⟩

mutual
theorem pticks_le_render : ∀ (v : JVal), pticks v ≤ (renderJVal v).length
  | .jnull => by simp [pticks, renderJVal]
  | .jbool b => by cases b <;> simp [pticks, renderJVal]
  | .jint n => by
    simp only [pticks, renderJVal]
    have := List.length_pos.mpr (intRepr_ne_nil n)
    omega
  | .jstr s => by
    simp only [pticks, renderJVal]
    have := two_le_quoteChars s
    omega
  | .jarr xs => by
    cases xs with
    | inil => simp [pticks, iticks, renderJVal, renderItems, joinComma]
    | icons v t =>
      have h := iticks_le_render (.icons v t) (fun hh => JItems.noConfusion hh)
      simp only [pticks, renderJVal, List.length_cons, List.length_append,
        List.length_singleton]
      omega
  | .jobj kvs => by
    cases kvs with
    | mnil =>
      simp [pticks, mticks, renderJVal, renderMembers, joinPairs, joinComma,
        List.insertionSort]
    | mcons k v t =>
      have h := mticks_le_render (.mcons k v t) (fun hh => JMembers.noConfusion hh)
      have hperm := joinPairs_length_perm _ _
        (List.perm_insertionSort keyLe (renderMembers (.mcons k v t)))
      simp only [pticks, renderJVal, List.length_cons, List.length_append,
        List.length_singleton] at *
      omega
theorem iticks_le_render :
    ∀ (xs : JItems), xs ≠ .inil →
      iticks xs ≤ (joinComma (renderItems xs)).length + 1
  | .inil, h => absurd rfl h
  | .icons v t, _ => by
    have hv := pticks_le_render v
    cases t with
    | inil => simp only [iticks, renderItems, joinComma]; omega
    | icons v2 t2 =>
      have ht := iticks_le_render (.icons v2 t2) (fun hh => JItems.noConfusion hh)
      simp only [iticks, renderItems, joinComma, List.length_append,
        List.length_cons] at *
      omega
theorem mticks_le_render :
    ∀ (m : JMembers), m ≠ .mnil →
      mticks m ≤ (joinPairs (renderMembers m)).length + 1
  | .mnil, h => absurd rfl h
  | .mcons k v t, _ => by
    have hv := pticks_le_render v
    have hq := two_le_quoteChars k
    cases t with
    | mnil =>
      simp only [mticks, renderMembers, joinPairs, List.map_cons, List.map_nil,
        joinComma, renderPair, List.length_append, List.length_cons]
      omega
    | mcons k2 v2 t2 =>
      have ht := mticks_le_render (.mcons k2 v2 t2) (fun hh => JMembers.noConfusion hh)
      simp only [mticks, renderMembers, joinPairs, List.map_cons, joinComma,
        renderPair, List.length_append, List.length_cons] at *
      omega
end

theorem skipWs_cons_false {c : Char} {l : List Char} (h : isWs c = false) :
    skipWs (c :: l) = c :: l := by
  simp [skipWs, h]

theorem parseJVal_null (f : Nat) (rest : List Char) :
    parseJVal (f + 1) (renderJVal JVal.jnull ++ rest)
      = some (JVal.jnull, rest) := by
  simp [renderJVal, parseJVal, skipWs, isWs]

theorem parseJVal_bool (f : Nat) (b : Bool) (rest : List Char) :
    parseJVal (f + 1) (renderJVal (JVal.jbool b) ++ rest)
      = some (JVal.jbool b, rest) := by
  cases b <;> simp [renderJVal, parseJVal, skipWs, isWs]

theorem parseJVal_str (f : Nat) (s : String) (rest : List Char) :
    parseJVal (f + 1) (renderJVal (JVal.jstr s) ++ rest)
      = some (JVal.jstr s, rest) := by
  have hps := parseStringBody_render s.data
    (((s.data.map escapeChar).flatten ++ '"' :: rest).length + 1) rest
    (by
      have := escFlatten_length s.data
      simp only [List.length_append, List.length_cons]
      omega)
  simp only [renderJVal, quoteChars, List.cons_append, List.append_assoc, parseJVal]
  rw [skipWs_cons_false (by decide)]
  simp only []
  rw [if_neg (by decide : ¬('"' : Char) = 'n'), if_neg (by decide : ¬('"' : Char) = 't'),
    if_neg (by decide : ¬('"' : Char) = 'f')]
  simp only [if_true, List.nil_append]
  rw [hps]

theorem parseJVal_int (f : Nat) (n : Int) (rest : List Char)
    (hstop : numStopB rest = true) :
    parseJVal (f + 1) (renderJVal (JVal.jint n) ++ rest)
      = some (JVal.jint n, rest) := by
  have hp := parseIntFrom_intRepr n rest hstop
  by_cases hneg : n < 0
  · have h1 : intRepr n = '-' :: natDigitsAux ((-n).toNat + 1) (-n).toNat := by
      unfold intRepr natDigits
      rw [if_pos hneg]
    have hp2 : parseIntFrom
        ('-' :: (natDigitsAux ((-n).toNat + 1) (-n).toNat ++ rest))
        = some (JVal.jint n, rest) := by
      rw [← List.cons_append, ← h1]
      exact hp
    simp [renderJVal, h1, parseJVal, skipWs, isWs, hp2]
  · obtain ⟨c, t, hct⟩ : ∃ c t, natDigitsAux (n.toNat + 1) n.toNat = c :: t := by
      cases hd : natDigitsAux (n.toNat + 1) n.toNat with
      | nil => exact absurd hd (natDigitsAux_ne_nil _ _ (Nat.lt_succ_self _))
      | cons c t => exact ⟨c, t, rfl⟩
    have hcd : c.isDigit = true :=
      natDigitsAux_digits _ _ (Nat.lt_succ_self _) c (by rw [hct]; simp)
    obtain ⟨hws, _, _, hn, ht, hf, hq, _, _⟩ := isDigit_head_facts hcd
    have h1 : intRepr n = c :: t := by
      unfold intRepr natDigits
      rw [if_neg hneg]
      exact hct
    simp only [renderJVal, h1, List.cons_append, parseJVal]
    rw [skipWs_cons_false hws]
    simp only []
    rw [if_neg hn, if_neg ht, if_neg hf, if_neg hq,
      if_pos (Or.inr hcd : c = '-' ∨ c.isDigit = true)]
    rw [show c :: (t ++ rest) = (c :: t) ++ rest from rfl, ← h1]
    exact hp

theorem pticks_pos (v : JVal) : 1 ≤ pticks v := by
  cases v <;> simp [pticks]

theorem joinComma_cons_ne_nil (x : List Char) (L : List (List Char))
    (h : L ≠ []) : joinComma (x :: L) = x ++ ',' :: joinComma L := by
  cases L with
  | nil => exact absurd rfl h
  | cons y t => rfl

theorem joinPairs_single (p : String × List Char) :
    joinPairs [p] = renderPair p := rfl

theorem joinPairs_cons2 (p q : String × List Char)
    (L : List (String × List Char)) :
    joinPairs (p :: q :: L) = renderPair p ++ ',' :: joinPairs (q :: L) := rfl

theorem sortedKeysB_tail {k : String} {v : JVal} {t : JMembers}
    (h : sortedKeysB (JMembers.mcons k v t) = true) : sortedKeysB t = true := by
  cases t with
  | mnil => rfl
  | mcons k2 v2 t2 =>
    simp only [sortedKeysB, Bool.and_eq_true] at h
    exact h.2

theorem parse_render_all (fuel : Nat) :
    (∀ (v : JVal) (rest : List Char), pticks v ≤ fuel → isNormalB v = true →
      numStopB rest = true →
      parseJVal fuel (renderJVal v ++ rest) = some (v, rest))
    ∧ (∀ (xs : JItems) (rest : List Char), xs ≠ JItems.inil →
      iticks xs ≤ fuel → isNormalItems xs = true → numStopB rest = true →
      parseItems fuel (joinComma (renderItems xs) ++ ']' :: rest)
        = some (xs, rest))
    ∧ (∀ (m : JMembers) (rest : List Char), m ≠ JMembers.mnil →
      mticks m ≤ fuel → isNormalMembers m = true → sortedKeysB m = true →
      numStopB rest = true →
      parseMembers fuel (joinPairs (renderMembers m) ++ '\x7d' :: rest)
        = some (m, rest)) := by
  induction fuel with
  | zero =>
    refine ⟨fun v rest ht _ _ => ?_, fun xs rest hne ht _ _ => ?_,
      fun m rest hne ht _ _ _ => ?_⟩
    · have := pticks_pos v; omega
    · cases xs with
      | inil => exact absurd rfl hne
      | icons v t => simp only [iticks] at ht; have := pticks_pos v; omega
    · cases m with
      | mnil => exact absurd rfl hne
      | mcons k v t => simp only [mticks] at ht; have := pticks_pos v; omega
  | succ f ihf =>
    obtain ⟨ihV, ihI, ihM⟩ := ihf
    refine ⟨?_, ?_, ?_⟩
    · -- values
      intro v rest ht hn hstop
      cases v with
      | jnull => exact parseJVal_null f rest
      | jbool b => exact parseJVal_bool f b rest
      | jint n => exact parseJVal_int f n rest hstop
      | jstr s => exact parseJVal_str f s rest
      | jarr xs =>
        cases xs with
        | inil =>
          simp only [renderJVal, renderItems, joinComma]
          simp [parseJVal, skipWs, isWs]
        | icons v t =>
          obtain ⟨c, t', hct, hws, hbr, _⟩ := render_head v
          have hy : ∃ y, joinComma (renderItems (JItems.icons v t))
              = renderJVal v ++ y := by
            cases t with
            | inil => exact ⟨[], by simp [renderItems, joinComma]⟩
            | icons v2 t2 =>
              refine ⟨',' :: joinComma (renderItems (JItems.icons v2 t2)), ?_⟩
              simp only [renderItems]
              rw [joinComma_cons_ne_nil _ _ (by simp [renderItems])]
          obtain ⟨y, hy⟩ := hy
          simp only [isNormalB] at hn
          simp only [renderJVal, List.cons_append, List.append_assoc, parseJVal]
          rw [skipWs_cons_false (by decide)]
          simp only []
          rw [if_neg (by decide : ¬('[' : Char) = 'n'),
            if_neg (by decide : ¬('[' : Char) = 't'),
            if_neg (by decide : ¬('[' : Char) = 'f'),
            if_neg (by decide : ¬('[' : Char) = '"'),
            if_neg (by decide :
              ¬(('[' : Char) = '-' ∨ ('[' : Char).isDigit = true))]
          simp only [if_true, List.nil_append]
          rw [hy, hct]
          simp only [List.cons_append, List.append_assoc]
          rw [skipWs_cons_false hws]
          split
          · rename_i r heq
            injection heq with h1 _
            exact absurd h1 hbr
          · rw [show c :: (t' ++ (y ++ (']' :: rest)))
                = (c :: t') ++ (y ++ (']' :: rest)) from rfl, ← hct]
            rw [← List.append_assoc, ← hy]
            rw [ihI (JItems.icons v t) rest (by simp)
              (by simp only [pticks] at ht; omega) hn hstop]
      | jobj kvs =>
        simp only [isNormalB, Bool.and_eq_true] at hn
        obtain ⟨hsk, hnm⟩ := hn
        cases kvs with
        | mnil =>
          simp only [renderJVal, renderMembers]
          simp [parseJVal, skipWs, isWs, List.insertionSort, joinPairs,
            joinComma]
        | mcons k v t =>
          have hy : ∃ y,
              joinPairs (renderMembers (JMembers.mcons k v t)) = '"' :: y := by
            cases t with
            | mnil =>
              refine ⟨(k.data.map escapeChar).flatten
                ++ '"' :: ':' :: renderJVal v, ?_⟩
              simp [renderMembers, joinPairs_single, renderPair, quoteChars]
            | mcons k2 v2 t2 =>
              refine ⟨(k.data.map escapeChar).flatten ++ '"' :: ':' :: renderJVal v
                ++ ',' :: joinPairs (renderMembers (JMembers.mcons k2 v2 t2)), ?_⟩
              simp only [renderMembers]
              rw [joinPairs_cons2]
              simp [renderPair, quoteChars]
          obtain ⟨y, hy⟩ := hy
          simp only [renderJVal, List.cons_append, List.append_assoc, parseJVal]
          rw [insertionSort_renderMembers_sorted _ hsk]
          rw [skipWs_cons_false (by decide)]
          simp only []
          rw [if_neg (by decide : ¬('\x7b' : Char) = 'n'),
            if_neg (by decide : ¬('\x7b' : Char) = 't'),
            if_neg (by decide : ¬('\x7b' : Char) = 'f'),
            if_neg (by decide : ¬('\x7b' : Char) = '"'),
            if_neg (by decide :
              ¬(('\x7b' : Char) = '-' ∨ ('\x7b' : Char).isDigit = true)),
            if_neg (by decide : ¬('\x7b' : Char) = '[')]
          simp only [if_true, List.nil_append]
          rw [hy]
          simp only [List.cons_append]
          rw [skipWs_cons_false (by decide)]
          split
          · rename_i r heq
            injection heq with h1 _
            exact absurd h1 (by decide)
          · rw [show ('"' :: (y ++ ('\x7d' :: rest)) : List Char)
                = ('"' :: y) ++ ('\x7d' :: rest) from rfl, ← hy]
            rw [ihM (JMembers.mcons k v t) rest (by simp)
              (by simp only [pticks] at ht; omega) hnm hsk hstop]
    · -- items
      intro xs rest hne ht hni hstop
      cases xs with
      | inil => exact absurd rfl hne
      | icons v t =>
        simp only [isNormalItems, Bool.and_eq_true] at hni
        obtain ⟨hnv, hnt⟩ := hni
        cases t with
        | inil =>
          simp only [renderItems, joinComma, parseItems]
          rw [ihV v (']' :: rest) (by simp only [iticks] at ht; omega)
            hnv rfl]
          simp only []
          rw [skipWs_cons_false (by decide)]
          rfl
        | icons v2 t2 =>
          simp only [renderItems] at *
          rw [joinComma_cons_ne_nil _ _ (by simp)]
          simp only [List.cons_append, List.append_assoc, parseItems]
          rw [ihV v (',' :: (joinComma (renderJVal v2 :: renderItems t2)
              ++ ']' :: rest))
            (by simp only [iticks] at ht; have := pticks_pos v2; omega)
            hnv rfl]
          simp only []
          rw [skipWs_cons_false (by decide)]
          simp only []
          have hrec := ihI (JItems.icons v2 t2) rest (by simp)
            (by simp only [iticks] at ht ⊢; omega) hnt hstop
          simp only [renderItems] at hrec
          rw [hrec]
    · -- members
      intro m rest hne hm hnm hsk hstop
      cases m with
      | mnil => exact absurd rfl hne
      | mcons k v t =>
        simp only [isNormalMembers, Bool.and_eq_true] at hnm
        obtain ⟨hnv, hnt⟩ := hnm
        have hskt : sortedKeysB t = true := sortedKeysB_tail hsk
        cases t with
        | mnil =>
          simp only [renderMembers, joinPairs_single, renderPair, quoteChars,
            List.cons_append, List.append_assoc, parseMembers]
          rw [skipWs_cons_false (by decide)]
          simp only []
          have hps := parseStringBody_render k.data
            (((k.data.map escapeChar).flatten
                ++ '"' :: (':' :: (renderJVal v ++ '\x7d' :: rest))).length + 1)
            (':' :: (renderJVal v ++ '\x7d' :: rest))
            (by
              have := escFlatten_length k.data
              simp only [List.length_append, List.length_cons]
              omega)
          simp only [List.nil_append]
          rw [hps]
          simp only []
          rw [skipWs_cons_false (by decide)]
          simp only []
          rw [ihV v ('\x7d' :: rest) (by simp only [mticks] at hm; omega)
            hnv rfl]
          simp only []
          rw [skipWs_cons_false (by decide)]
          rfl
        | mcons k2 v2 t2 =>
          simp only [renderMembers] at *
          rw [joinPairs_cons2]
          simp only [renderPair, quoteChars, List.cons_append,
            List.append_assoc, parseMembers]
          rw [skipWs_cons_false (by decide)]
          simp only []
          have hps := parseStringBody_render k.data
            (((k.data.map escapeChar).flatten
                ++ '"' :: (':' :: (renderJVal v
                  ++ ',' :: (joinPairs ((k2, renderJVal v2)
                    :: renderMembers t2) ++ '\x7d' :: rest)))).length + 1)
            (':' :: (renderJVal v
              ++ ',' :: (joinPairs ((k2, renderJVal v2) :: renderMembers t2)
                ++ '\x7d' :: rest)))
            (by
              have := escFlatten_length k.data
              simp only [List.length_append, List.length_cons]
              omega)
          simp only [List.nil_append]
          rw [hps]
          simp only []
          rw [skipWs_cons_false (by decide)]
          simp only []
          rw [ihV v (',' :: (joinPairs ((k2, renderJVal v2)
              :: renderMembers t2) ++ '\x7d' :: rest))
            (by simp only [mticks] at hm; have := pticks_pos v2; omega)
            hnv rfl]
          simp only []
          rw [skipWs_cons_false (by decide)]
          simp only []
          have hrec := ihM (JMembers.mcons k2 v2 t2) rest (by simp)
            (by simp only [mticks] at hm ⊢; omega) hnt
            hskt hstop
          simp only [renderMembers] at hrec
          rw [hrec]

theorem parseLine_render (r : JVal) :
    parseLine (renderJVal r) = some (normalize r) := by
  unfold parseLine
  have hn := render_normalize r
  have hfuel : pticks (normalize r) ≤ (renderJVal r).length + 1 := by
    have := pticks_le_render (normalize r)
    rw [hn] at this
    omega
  have h := (parse_render_all ((renderJVal r).length + 1)).1 (normalize r) []
    hfuel (isNormal_normalize r) rfl
  rw [List.append_nil, hn] at h
  rw [h]
  simp [skipWs]

theorem splitLines_nlterm_decomp (l : List Char) :
    ∃ L, splitLines (l ++ ['\n']) = L ++ [[]] := by
  induction l with
  | nil => exact ⟨[[]], rfl⟩
  | cons c t ih =>
    obtain ⟨L, hL⟩ := ih
    by_cases hc : c = '\n'
    · subst hc
      rw [List.cons_append, splitLines_cons_nl, hL]
      exact ⟨[] :: L, rfl⟩
    · rw [List.cons_append, splitLines_cons c _ hc, hL]
      cases L with
      | nil =>
        have h2 := two_le_splitLines_nlterm t
        rw [hL] at h2
        simp at h2
      | cons x L2 =>
        refine ⟨(c :: x) :: L2, ?_⟩
        simp

/-- C10 counterexample: starting from the prior log state `"x"` — a
truncated record with no trailing newline, exactly the crash residue the
claim says `read_all` tolerates — appending the receipt `{"a": 1}` glues the
fragment and the new record into the single malformed line `x{"a":1}`, so
`read_all` returns `[]`: the new record is not the last record, and is not
returned at all, while the claim demands the prior well-formed records
(none) followed by the new record. -/
theorem read_all_append_counterexample :
    AuditLogger.read_all (AuditLogger.append ['x']
        (JVal.jobj (JMembers.mcons "a" (JVal.jint 1) JMembers.mnil)))
      = ([] : List JVal)
    ∧ AuditLogger.read_all ['x']
        ++ [normalize (JVal.jobj (JMembers.mcons "a" (JVal.jint 1) JMembers.mnil))]
      ≠ ([] : List JVal)
    ∧ AuditLogger.read_all ['x'] = ([] : List JVal) := by
  refine ⟨rfl, ?_, rfl⟩
  intro hcontra
  have hlen := congrArg List.length hcontra
  simp at hlen

/-- C10 (amended): for every prior log state that is empty or
newline-terminated (in particular any state produced by completed `append`
calls, with arbitrary malformed whole lines), after `append(r)` a
`read_all()` returns the prior well-formed records, in order, followed by
exactly one new last record: `r` with the members of every object in sorted
key order — the same key→value mapping as `r`, with identical canonical
bytes.  A prior state whose last line is an unterminated fragment instead
absorbs the new record into that malformed line. -/
theorem read_all_append (file : List Char) (r : JVal)
    (h : file = [] ∨ ∃ f2, file = f2 ++ ['\n']) :
    AuditLogger.read_all (AuditLogger.append file r)
      = AuditLogger.read_all file ++ [normalize r]
    ∧ canonical_bytes (normalize r) = canonical_bytes r := by
  constructor
  · unfold AuditLogger.append AuditLogger.read_all
    rcases h with h | ⟨f2, h⟩
    · subst h
      simp only [List.nil_append]
      rw [show (renderJVal r ++ ['\n']) = renderJVal r ++ '\n' :: [] from rfl,
        splitLines_seg _ _ (renderJVal_ne_nl r)]
      rw [show splitLines [] = [[]] from rfl]
      simp [List.filterMap_cons, parseLine_render r,
        show parseLine [] = none from rfl]
    · subst h
      rw [List.append_assoc (f2 ++ ['\n']) (renderJVal r) ['\n']]
      rw [splitLines_nlterm_append f2 (renderJVal r ++ ['\n'])]
      rw [show (renderJVal r ++ ['\n']) = renderJVal r ++ '\n' :: [] from rfl,
        splitLines_seg _ _ (renderJVal_ne_nl r)]
      rw [List.filterMap_append]
      obtain ⟨L, hL⟩ := splitLines_nlterm_decomp f2
      rw [hL, List.dropLast_concat, List.filterMap_append]
      simp [List.filterMap_cons, parseLine_render r,
        show parseLine [] = none from rfl, show splitLines [] = [[]] from rfl]
  · unfold canonical_bytes
    rw [render_normalize]

/-- C10 witness: appending `{"a": 1}` to the empty log makes it the last
(and only) record read back. -/
theorem read_all_append_witness :
    AuditLogger.read_all (AuditLogger.append []
        (JVal.jobj (JMembers.mcons "a" (JVal.jint 1) JMembers.mnil)))
      = AuditLogger.read_all []
        ++ [normalize (JVal.jobj (JMembers.mcons "a" (JVal.jint 1) JMembers.mnil))]
    ∧ canonical_bytes
        (normalize (JVal.jobj (JMembers.mcons "a" (JVal.jint 1) JMembers.mnil)))
      = canonical_bytes
        (JVal.jobj (JMembers.mcons "a" (JVal.jint 1) JMembers.mnil)) :=
  read_all_append [] (JVal.jobj (JMembers.mcons "a" (JVal.jint 1) JMembers.mnil))
    (Or.inl rfl)

end Marketscar
